import Mathlib

/-!
# Verification of the WavePlus_Bridge logging database (`libs/logdb.py`)

This file gives a shallow embedding of the two classes `_LogDbCsv` and
`LogDB` of `libs/logdb.py` and settles the frozen claims about them.

Modelling conventions:

* Python `float` values are modelled by the inductive type `PyF` with
  constructors `nan`, `inf` (the sentinel `_REP = float('inf')` used by the
  delta decoder) and `num (q : ℚ)` for ordinary real values.  Structural
  equality of `PyF` is exactly the NaN-aware equality the spec talks about;
  Python's `==` on floats (where `nan == x` is always false) is the separate
  boolean `pyEqB`.
* File contents are byte strings, modelled as `List Char`; label and pattern
  strings stay `String`.  `f.readline()` / `f.read(n)` / `f.seek` are
  modelled by explicit positions into that list.
* The textual rendering of a float (`str(value)`) and the parser
  (`float(string)`) belong to the Python runtime, not to this repository;
  they are abstracted as parameters `fmt : PyF → List Char` and
  `pyFloat : List Char → Option PyF` (with `none` = `float` raised).
  Theorems that need the actual round-trip property `float(str(x)) == x`
  state it as a hypothesis on the values involved.
* `re.fullmatch` of `LogDB.get_labels_from_spec` is likewise abstracted as a
  parameter `fullmatch : String → String → Bool`; taking it to be string
  equality models literal patterns without regex metacharacters.
* Code that can raise is modelled in `Except`; code with no raising
  statement is a total function.
-/

set_option maxHeartbeats 1000000

/-- Model of a Python `float`: not-a-number, `float('inf')` (the module's
repetition sentinel `_REP`), or an ordinary real modelled as a rational. -/
inductive PyF : Type
  | nan : PyF
  | inf : PyF
  | num : ℚ → PyF
  deriving DecidableEq, Repr

namespace PyF

/-- Python `==` on the modelled floats: `nan` compares unequal to
everything (including itself), `inf == inf`, numbers compare as rationals. -/
def pyEqB : PyF → PyF → Bool
  | nan, _ => false
  | _, nan => false
  | inf, inf => true
  | inf, num _ => false
  | num _, inf => false
  | num a, num b => a = b

/-- Python `<` against a rational bound: `nan < x` and `inf < x` are false. -/
def pyLtQ : PyF → ℚ → Bool
  | nan, _ => false
  | inf, _ => false
  | num a, b => a < b

/-- Python `+` on the modelled floats, as used by the `get_csv` accumulator
(which only ever adds non-NaN values to a non-NaN sum). -/
def pyAdd : PyF → PyF → PyF
  | nan, _ => nan
  | _, nan => nan
  | inf, _ => inf
  | _, inf => inf
  | num a, num b => num (a + b)

/-- Python `/` as used by `get_csv` (`sum_values/sum_length` with a positive
integer denominator). -/
def pyDiv : PyF → ℚ → PyF
  | nan, _ => nan
  | inf, _ => inf
  | num a, b => num (a / b)

end PyF

/-! ## Byte-string utilities (`bytes.split`, `str.strip`, `readline`) -/

/-- `bytes.split(sep)` / `str.split(sep)`: splits at every occurrence of
`sep`, never collapsing; the result always has `count sep + 1` pieces. -/
def pySplit (sep : Char) : List Char → List (List Char)
  | [] => [[]]
  | c :: cs =>
    match pySplit sep cs with
    | [] => [[c]]
    | r :: rs => if c = sep then [] :: r :: rs else (c :: r) :: rs

/-- Whitespace characters removed by Python's `str.strip()`. -/
def pyWs (c : Char) : Bool :=
  c = ' ' || c = '\t' || c = '\n' || c = '\r' || c = Char.ofNat 11 || c = Char.ofNat 12

/-- Python `str.strip()`. -/
def pyStrip (s : List Char) : List Char :=
  ((s.dropWhile pyWs).reverse.dropWhile pyWs).reverse

/-- Index of the first `'\n'` in a byte string, if any. -/
def findNl : List Char → Option Nat
  | [] => none
  | c :: cs => if c = '\n' then some 0 else (findNl cs).map (· + 1)

/-- Position just after the line started at (or running through) position
`p`: the model of `f.seek(p); f.readline(); f.tell()`.  If no newline occurs
at or after `p` the file end is returned. -/
def readlineEnd (content : List Char) (p : Nat) : Nat :=
  match findNl (content.drop p) with
  | some i => p + i + 1
  | none => content.length

/-- The byte slice `[a, b)` of a file, the model of
`f.seek(a); f.read(b - a)` (for `a ≤ b`; the module never reads a negative
amount on a well-formed file). -/
def sliceBytes (content : List Char) (a b : Nat) : List Char :=
  (content.drop a).take (b - a)

lemma pySplit_ne_nil (sep : Char) (s : List Char) : pySplit sep s ≠ [] := by
  cases s with
  | nil => simp [pySplit]
  | cons c cs =>
    simp only [pySplit]
    rcases h : pySplit sep cs with _ | ⟨r, rs⟩
    · simp
    · by_cases hc : c = sep <;> simp [hc]

lemma findNl_lt_length {s : List Char} {i : Nat} (h : findNl s = some i) :
    i < s.length := by
  induction s generalizing i with
  | nil => simp [findNl] at h
  | cons c cs ih =>
    simp only [findNl] at h
    by_cases hc : c = '\n'
    · rw [if_pos hc] at h
      obtain rfl : (0 : Nat) = i := Option.some_injective _ h
      simp
    · simp only [hc, if_false, Option.map_eq_some'] at h
      obtain ⟨j, hj, rfl⟩ := h
      have := ih hj
      simp; omega

lemma findNl_eq_none {s : List Char} (h : findNl s = none) : '\n' ∉ s := by
  induction s with
  | nil => simp
  | cons c cs ih =>
    simp only [findNl] at h
    by_cases hc : c = '\n'
    · simp [hc] at h
    · simp only [hc, if_false, Option.map_eq_none'] at h
      simp [ih h, hc]
      intro hcc
      exact hc hcc.symm

lemma readlineEnd_le (content : List Char) (p : Nat) :
    readlineEnd content p ≤ content.length := by
  unfold readlineEnd
  rcases h : findNl (content.drop p) with _ | i
  · exact le_refl _
  · show p + i + 1 ≤ content.length
    have := findNl_lt_length h
    simp only [List.length_drop] at this
    omega

/-! ## `_LogDbCsv` field decoding and data restore

Source: `src/libs/logdb.py`, `_LogDbCsv._str2float` (lines 151-166) and
`_LogDbCsv.restore_data` (lines 168-300). -/

/-- The in-memory data matrix of `restore_data`: one entry per label of
`self.labels`, `none` for labels without a member in the `data` dictionary
(`data_matrix` of the source). -/
abbrev DM := List (Option (List PyF))

/-- The record budget `nbr_records_to_load`: `none` models `float('inf')`
(no `number_retention_records`), `some k` the remaining integer budget. -/
abbrev OCap := Option ℤ

/-- `nbr_records_to_load <= 0`. -/
def capLe0 : OCap → Bool
  | none => false
  | some k => k ≤ 0

/-- `nbr_records_to_load -= 1`. -/
def capDec : OCap → OCap
  | none => none
  | some k => some (k - 1)

section Restore

variable (logDelta : Bool) (pyFloat : List Char → Option PyF)

/-- `_LogDbCsv._str2float`: `""` is NaN in absolute mode and the repetition
sentinel `_REP` in delta mode; `"n"` is NaN; otherwise `float(string)`,
with a parse failure recovered as `_REP` (delta mode, blank after
stripping) or NaN. -/
def str2float (s : List Char) : PyF :=
  if s = [] then (if logDelta then .inf else .nan)
  else if s = ['n'] then .nan
  else
    match pyFloat s with
    | some v => v
    | none => if pyStrip s = [] && logDelta then .inf else .nan

/-- One parsed CSV line added to the data matrix (`restore_data` lines
261-271): position `i` receives `_str2float` of field `i`, positions past
the end of the record are filled with NaN; `none` columns are skipped.
(The source's fill-up loop runs to `len(self.labels)`, which equals the
length of `data_matrix` by construction.) -/
def addRecord : DM → List (List Char) → DM
  | [], _ => []
  | col :: dm, [] => col.map (fun ds => ds ++ [PyF.nan]) :: addRecord dm []
  | col :: dm, f :: fs =>
      col.map (fun ds => ds ++ [str2float logDelta pyFloat f]) :: addRecord dm fs

/-- The inner loop of `restore_data` over the (already reversed) lines of a
chunk (lines 247-276).  Returns `.error` for a line with more fields than
labels, otherwise the updated matrix, the remaining record budget, and
whether the record-budget `break` fired. -/
def processLines : List (List Char) → DM → OCap → Except Unit (DM × OCap × Bool)
  | [], dm, cap => .ok (dm, cap, false)
  | line :: rest, dm, cap =>
    -- `record = str(line, ENCODING).strip().split(",")`, inlined below
    if (pySplit ',' (pyStrip line)).length < 2 then processLines rest dm cap
    else if dm.length < (pySplit ',' (pyStrip line)).length then .error ()
    else if capLe0 (capDec cap) then
      .ok (addRecord logDelta pyFloat dm (pySplit ',' (pyStrip line)), capDec cap, true)
    else
      processLines rest (addRecord logDelta pyFloat dm (pySplit ',' (pyStrip line)))
        (capDec cap)

/-- The delta fix-up pass of `restore_data` (lines 286-292): replace each
repetition sentinel by the value carried forward, with an initial carry of
NaN. -/
def deltaResolve : PyF → List PyF → List PyF
  | _, [] => []
  | carry, v :: vs =>
      if v = PyF.inf then carry :: deltaResolve carry vs
      else v :: deltaResolve v vs

/-- The epilogue of `restore_data` (lines 283-292): reverse every column
back to chronological order and, in delta mode, resolve the repetition
sentinels. -/
def finalizeDM (dm : DM) : DM :=
  dm.map (Option.map (fun ds =>
    if logDelta then deltaResolve PyF.nan ds.reverse else ds.reverse))

/-- Reference (chunk-free) restore: parse the whole data region after the
header in one piece, process its lines newest-first, then finalize.  The
chunked loop of the source is proved equal to this below. -/
def restoreRef (content : List Char) (hl : Nat) (dm : DM) (cap : OCap) :
    Except Unit DM :=
  if capLe0 cap then .ok (finalizeDM logDelta dm)
  else
    match processLines logDelta pyFloat
        ((pySplit '\n' (content.drop hl)).reverse) dm cap with
    | .error () => .error ()
    | .ok (dm', _, _) => .ok (finalizeDM logDelta dm')

/-- The chunked read loop of `restore_data` (lines 215-292).

Per iteration (matching the source line by line): stop if the record budget
is exhausted; seek to `read_pos - reload_size`, or to `header_length - 2`
(setting `all_read`) when that would land inside the header; `readline()`
to realign to the next line start; read the chunk up to `read_pos`;
process its lines in reverse; double `reload_size` and continue with the
new `read_pos`.  `reload_size` is a positive natural (`ℕ+`): the source
initializes it from `INIT_RELOAD_SIZE = 1000000` (or the test overrides
1, 10, 1000, 100000), all positive.  The Python `int` comparison
`read_pos - reload_size < header_length` is written as
`read_pos < header_length + reload_size`. -/
def restoreLoop (content : List Char) (hl : Nat) :
    Nat → ℕ+ → DM → OCap → Except Unit DM
  | readPos, reload, dm, cap =>
    if capLe0 cap then .ok (finalizeDM logDelta dm)
    else if hA : readPos < hl + (reload : ℕ) then
      -- `all_read` iteration: seek to `header_length - 2`, realign with
      -- `readline()` (yielding the new read position), read and process
      -- the final chunk, leave the loop.
      match processLines logDelta pyFloat
          ((pySplit '\n'
            (sliceBytes content (readlineEnd content (hl - 2)) readPos)).reverse)
          dm cap with
      | .error () => .error ()
      | .ok (dm', _, _) => .ok (finalizeDM logDelta dm')
    else
      -- ordinary iteration: seek to `read_pos - reload_size`, realign,
      -- read and process the chunk, double the reload size and continue.
      match processLines logDelta pyFloat
          ((pySplit '\n'
            (sliceBytes content (readlineEnd content (readPos - (reload : ℕ)))
              readPos)).reverse)
          dm cap with
      | .error () => .error ()
      | .ok (dm', cap', _) =>
          restoreLoop content hl (readlineEnd content (readPos - (reload : ℕ)))
            (reload * 2) dm' cap'
  termination_by readPos reload => max content.length readPos + 1 - (reload : ℕ)
  decreasing_by
    have h1 : readlineEnd content (readPos - (reload : ℕ)) ≤ content.length :=
      readlineEnd_le content _
    have h2 : 1 ≤ (reload : ℕ) := reload.one_le
    have h4 : ((reload * 2 : ℕ+) : ℕ) = (reload : ℕ) * 2 := rfl
    have hm1 : max content.length (readlineEnd content (readPos - (reload : ℕ)))
        = content.length := max_eq_left h1
    have hm2 : content.length ≤ max content.length readPos := le_max_left _ _
    have hm3 : readPos ≤ max content.length readPos := le_max_right _ _
    rw [h4, hm1]
    omega

/-- `_LogDbCsv.restore_data` on an existing file (`header_length` not
`None`): read backward from the file end in geometrically growing chunks
starting from `initReload`. -/
def restoreData (content : List Char) (hl : Nat) (initReload : ℕ+)
    (dm : DM) (cap : OCap) : Except Unit DM :=
  restoreLoop logDelta pyFloat content hl content.length initReload dm cap

end Restore

/-! ## Lemmas about the byte-string utilities -/

lemma pySplit_cons (sep c : Char) (cs : List Char) :
    pySplit sep (c :: cs) =
      if c = sep then [] :: pySplit sep cs
      else (c :: (pySplit sep cs).headI) :: (pySplit sep cs).tail := by
  rcases h : pySplit sep cs with _ | ⟨r, rs⟩
  · exact absurd h (pySplit_ne_nil sep cs)
  · show (match pySplit sep cs with
      | [] => [[c]]
      | r :: rs => if c = sep then [] :: r :: rs else (c :: r) :: rs) = _
    rw [h]
    by_cases hc : c = sep <;> simp [hc]

lemma pySplit_length (sep : Char) (s : List Char) :
    (pySplit sep s).length = s.count sep + 1 := by
  induction s with
  | nil => simp [pySplit]
  | cons c cs ih =>
    rw [pySplit_cons]
    by_cases hc : c = sep
    · simp [hc, List.count_cons, ih]
    · rcases h : pySplit sep cs with _ | ⟨r, rs⟩
      · exact absurd h (pySplit_ne_nil sep cs)
      · have := ih
        rw [h] at this
        simp only [hc, if_false, List.count_cons]
        simp [h, ← this, hc]

lemma pySplit_two_le {sep : Char} {s : List Char} (h : s.getLast? = some sep) :
    2 ≤ (pySplit sep s).length := by
  have hmem : sep ∈ s := by
    rcases List.getLast?_eq_some_iff.mp h with ⟨t, rfl⟩
    simp
  have : 1 ≤ s.count sep := List.one_le_count_iff.mpr hmem
  rw [pySplit_length]
  omega

/-- Splitting a concatenation whose first part ends with the separator (or
is empty): the pieces of the first part minus its trailing empty piece,
followed by the pieces of the second part. -/
lemma pySplit_append_endSep {sep : Char} :
    ∀ {s : List Char} (t : List Char),
      (s.getLast? = some sep ∨ s = []) →
      pySplit sep (s ++ t) = (pySplit sep s).dropLast ++ pySplit sep t
  | [], t, _ => by simp [pySplit]
  | [c], t, hs => by
    obtain rfl : c = sep := by
      rcases hs with hs | hs
      · simpa using hs
      · simp at hs
    rw [List.cons_append, pySplit_cons, pySplit_cons]
    simp [pySplit]
  | c :: c' :: s', t, hs => by
    have hlast : (c' :: s').getLast? = some sep := by
      rcases hs with hs | hs
      · rwa [List.getLast?_cons_cons] at hs
      · simp at hs
    have ih := pySplit_append_endSep (s := c' :: s') t (Or.inl hlast)
    have h2 : 2 ≤ (pySplit sep (c' :: s')).length := pySplit_two_le hlast
    rcases hq : pySplit sep (c' :: s') with _ | ⟨q, Q⟩
    · exact absurd hq (pySplit_ne_nil _ _)
    · have hQ : Q ≠ [] := by
        rw [hq] at h2
        simp at h2
        exact List.ne_nil_of_length_pos (by omega)
      rw [hq] at ih
      by_cases hc : c = sep
      · rw [List.cons_append, pySplit_cons, if_pos hc, ih,
            pySplit_cons, if_pos hc, hq]
        rw [List.dropLast_cons_of_ne_nil (by simp [hQ] : q :: Q ≠ [])]
        simp
      · rw [List.cons_append, pySplit_cons, if_neg hc, ih,
            pySplit_cons, if_neg hc, hq]
        rw [List.dropLast_cons_of_ne_nil hQ]
        simp only [List.headI_cons, List.tail_cons]
        rw [List.dropLast_cons_of_ne_nil hQ]
        rcases hQ' : Q.dropLast with _ | ⟨q2, Q2⟩ <;> simp [hQ']

/-- A byte string ending with the separator splits into its pieces plus a
trailing empty piece. -/
lemma pySplit_endSep_eq {sep : Char} {s : List Char}
    (h : s.getLast? = some sep ∨ s = []) :
    pySplit sep s = (pySplit sep s).dropLast ++ [[]] := by
  have := @pySplit_append_endSep sep s [] h
  simpa [pySplit] using this

lemma pySplit_endSep_reverse {sep : Char} {s : List Char}
    (h : s.getLast? = some sep ∨ s = []) :
    (pySplit sep s).reverse = [] :: (pySplit sep s).dropLast.reverse := by
  conv_lhs => rw [pySplit_endSep_eq h]
  simp

lemma findNl_get {s : List Char} {i : Nat} (h : findNl s = some i) :
    s[i]? = some '\n' := by
  induction s generalizing i with
  | nil => simp [findNl] at h
  | cons c cs ih =>
    simp only [findNl] at h
    by_cases hc : c = '\n'
    · rw [if_pos hc] at h
      obtain rfl : (0 : Nat) = i := Option.some_injective _ h
      simp [hc]
    · simp only [hc, if_false, Option.map_eq_some'] at h
      obtain ⟨j, hj, rfl⟩ := h
      simpa using ih hj

lemma findNl_le_of_get {s : List Char} {j : Nat} (h : s[j]? = some '\n') :
    ∃ i, findNl s = some i ∧ i ≤ j := by
  induction s generalizing j with
  | nil => simp at h
  | cons c cs ih =>
    by_cases hc : c = '\n'
    · exact ⟨0, by simp [findNl, hc], Nat.zero_le _⟩
    · cases j with
      | zero =>
        rw [List.getElem?_cons_zero] at h
        exact absurd (Option.some_injective _ h) hc
      | succ j =>
        rw [List.getElem?_cons_succ] at h
        obtain ⟨i, hi, hij⟩ := ih h
        exact ⟨i + 1, by simp [findNl, hc, hi], by omega⟩

lemma readlineEnd_le_of_nl {content : List Char} {p j : Nat}
    (hj : content[j]? = some '\n') (hpj : p ≤ j) :
    readlineEnd content p ≤ j + 1 := by
  have hdrop : (content.drop p)[j - p]? = some '\n' := by
    rw [List.getElem?_drop]
    rwa [Nat.add_sub_cancel' hpj]
  obtain ⟨i, hi, hij⟩ := findNl_le_of_get hdrop
  unfold readlineEnd
  rw [hi]
  show p + i + 1 ≤ j + 1
  omega

lemma readlineEnd_get {content : List Char} {p : Nat}
    (h : readlineEnd content p ≠ content.length) :
    ∃ i, findNl (content.drop p) = some i ∧
      readlineEnd content p = p + i + 1 ∧ content[p + i]? = some '\n' := by
  rcases hf : findNl (content.drop p) with _ | i
  · exfalso
    apply h
    unfold readlineEnd
    rw [hf]
  · refine ⟨i, rfl, ?_, ?_⟩
    · unfold readlineEnd
      rw [hf]
    · have := findNl_get hf
      rwa [List.getElem?_drop] at this

lemma readlineEnd_gt {content : List Char} {p i : Nat}
    (h : findNl (content.drop p) = some i) : p < readlineEnd content p := by
  unfold readlineEnd
  rw [h]
  show p < p + i + 1
  omega

/-- The `f.seek(header_length - 2); f.readline()` realignment trick of
`restore_data`: on a well-formed header (whose byte right before the final
newline is not itself a newline), it lands exactly on `header_length`. -/
lemma readlineEnd_header {content : List Char} {hl : Nat}
    (h2 : 2 ≤ hl) (hle : hl ≤ content.length)
    (hnl : content[hl - 1]? = some '\n') (hnn : content[hl - 2]? ≠ some '\n') :
    readlineEnd content (hl - 2) = hl := by
  have hd0 : (content.drop (hl - 2))[0]? = content[hl - 2]? := by
    rw [List.getElem?_drop]
    simp
  have hd1 : (content.drop (hl - 2))[1]? = content[hl - 1]? := by
    rw [List.getElem?_drop]
    congr 1
    omega
  rcases hdrop : content.drop (hl - 2) with _ | ⟨c0, rest⟩
  · rw [hdrop] at hd1
    rw [hnl] at hd1
    simp at hd1
  · rcases rest with _ | ⟨c1, rest'⟩
    · rw [hdrop] at hd1
      rw [hnl] at hd1
      simp at hd1
    · rw [hdrop] at hd0 hd1
      simp only [List.getElem?_cons_zero, List.getElem?_cons_succ] at hd0 hd1
      have hc0 : c0 ≠ '\n' := by
        intro hc
        exact hnn (by rw [← hd0, hc])
      have hc1 : c1 = '\n' := by
        rw [hnl] at hd1
        exact Option.some_injective _ hd1
      unfold readlineEnd
      rw [hdrop]
      simp [findNl, hc0, hc1]
      omega

lemma sliceBytes_self (content : List Char) (a : Nat) :
    sliceBytes content a a = [] := by
  simp [sliceBytes]

lemma sliceBytes_split {content : List Char} {a b c : Nat}
    (h1 : a ≤ b) (h2 : b ≤ c) :
    sliceBytes content a c = sliceBytes content a b ++ sliceBytes content b c := by
  unfold sliceBytes
  have hc : c - a = (b - a) + (c - b) := by omega
  have hdd : (content.drop a).drop (b - a) = content.drop b := by
    rw [List.drop_drop]
    congr 1
    omega
  rw [hc, List.take_add, hdd]

lemma sliceBytes_getLast {content : List Char} {a b : Nat}
    (hab : a < b) (hb : b ≤ content.length) :
    (sliceBytes content a b).getLast? = content[b - 1]? := by
  unfold sliceBytes
  have hlen : ((content.drop a).take (b - a)).length = b - a := by
    rw [List.length_take, List.length_drop]
    omega
  rw [List.getLast?_eq_getElem?, hlen, List.getElem?_take, if_pos (by omega),
    List.getElem?_drop]
  congr 1
  omega

lemma sliceBytes_full {content : List Char} {hl : Nat} :
    sliceBytes content hl content.length = content.drop hl := by
  unfold sliceBytes
  apply List.take_of_length_le
  simp

/-! ## Chunk invariance of `restore_data`

The chunked backward read loop (`restoreLoop`) produces exactly the same
result as processing the whole data region in one piece (`restoreRef`),
for every positive initial reload size.  This is the heart of claims about
restore behaviour: chunk boundaries are always realigned to line starts by
`f.readline()`, chunks are processed newest-first and every chunk's lines
are scanned in reverse, so the overall processing order is the exact
reverse line order of the file regardless of the chunk size. -/

lemma processLines_empty_line (lo : Bool) (pf : List Char → Option PyF)
    (L : List (List Char)) (dm : DM) (cap : OCap) :
    processLines lo pf ([] :: L) dm cap = processLines lo pf L dm cap := by
  have h : (pySplit ',' (pyStrip ([] : List Char))).length < 2 := by
    simp [pyStrip, pySplit]
  simp only [processLines, if_pos h]

lemma processLines_stop_true (lo : Bool) (pf : List Char → Option PyF) :
    ∀ {L : List (List Char)} {dm : DM} {cap : OCap} {dm' : DM} {cap' : OCap},
      processLines lo pf L dm cap = .ok (dm', cap', true) → capLe0 cap' = true
  | [], dm, cap, dm', cap', h => by
      simp only [processLines, Except.ok.injEq, Prod.mk.injEq] at h
      exact absurd h.2.2 (by simp)
  | line :: rest, dm, cap, dm', cap', h => by
      simp only [processLines] at h
      by_cases h2 : (pySplit ',' (pyStrip line)).length < 2
      · rw [if_pos h2] at h
        exact processLines_stop_true lo pf h
      · rw [if_neg h2] at h
        by_cases h3 : dm.length < (pySplit ',' (pyStrip line)).length
        · rw [if_pos h3] at h
          exact absurd h (by simp)
        · rw [if_neg h3] at h
          by_cases h4 : capLe0 (capDec cap) = true
          · rw [if_pos h4] at h
            simp only [Except.ok.injEq, Prod.mk.injEq] at h
            rw [← h.2.1]
            exact h4
          · rw [if_neg h4] at h
            exact processLines_stop_true lo pf h

lemma processLines_ok_false_cap (lo : Bool) (pf : List Char → Option PyF) :
    ∀ {L : List (List Char)} {dm : DM} {cap : OCap} {dm' : DM} {cap' : OCap},
      capLe0 cap = false →
      processLines lo pf L dm cap = .ok (dm', cap', false) → capLe0 cap' = false
  | [], dm, cap, dm', cap', hcap, h => by
      simp only [processLines, Except.ok.injEq, Prod.mk.injEq] at h
      rw [← h.2.1]
      exact hcap
  | line :: rest, dm, cap, dm', cap', hcap, h => by
      simp only [processLines] at h
      by_cases h2 : (pySplit ',' (pyStrip line)).length < 2
      · rw [if_pos h2] at h
        exact processLines_ok_false_cap lo pf hcap h
      · rw [if_neg h2] at h
        by_cases h3 : dm.length < (pySplit ',' (pyStrip line)).length
        · rw [if_pos h3] at h
          exact absurd h (by simp)
        · rw [if_neg h3] at h
          by_cases h4 : capLe0 (capDec cap) = true
          · rw [if_pos h4] at h
            simp only [Except.ok.injEq, Prod.mk.injEq] at h
            exact absurd h.2.2 (by simp)
          · rw [if_neg h4] at h
            exact processLines_ok_false_cap lo pf (by simpa using h4) h

/-- Processing a concatenation of line lists: process the first part; on a
record-budget stop the rest is never reached, otherwise continue with the
second part. -/
lemma processLines_append (lo : Bool) (pf : List Char → Option PyF) :
    ∀ (L1 L2 : List (List Char)) (dm : DM) (cap : OCap),
      processLines lo pf (L1 ++ L2) dm cap =
        match processLines lo pf L1 dm cap with
        | .error () => .error ()
        | .ok (dm', cap', stop) =>
            if stop then .ok (dm', cap', true) else processLines lo pf L2 dm' cap'
  | [], L2, dm, cap => by simp [processLines]
  | line :: rest, L2, dm, cap => by
      simp only [List.cons_append, processLines]
      by_cases h2 : (pySplit ',' (pyStrip line)).length < 2
      · rw [if_pos h2, if_pos h2]
        exact processLines_append lo pf rest L2 dm cap
      · rw [if_neg h2, if_neg h2]
        by_cases h3 : dm.length < (pySplit ',' (pyStrip line)).length
        · rw [if_pos h3, if_pos h3]
        · rw [if_neg h3, if_neg h3]
          by_cases h4 : capLe0 (capDec cap) = true
          · rw [if_pos h4, if_pos h4]
            simp
          · rw [if_neg h4, if_neg h4]
            exact processLines_append lo pf rest L2 _ _

/-- Well-formedness of the header region of a backing file: at least the
two header lines are present, the label line ends in a newline, and the
byte just before that newline is not itself a newline (true of every file
this module writes: the label line ends in a padding space or a label
character).  This is what makes the `seek(header_length - 2); readline()`
realignment land exactly on the data region. -/
def WfHeader (content : List Char) (hl : Nat) : Prop :=
  2 ≤ hl ∧ hl ≤ content.length ∧
    content[hl - 1]? = some '\n' ∧ content[hl - 2]? ≠ some '\n'

instance (content : List Char) (hl : Nat) : Decidable (WfHeader content hl) := by
  unfold WfHeader
  infer_instance

/-- Proof-only reference point: processing of the data-region prefix
`[hl, b)` in one piece.  `restoreRef` is the case `b = content.length`;
`restoreLoop` maintains this as its invariant. -/
def refProcessPrefix (logDelta : Bool) (pyFloat : List Char → Option PyF)
    (content : List Char) (hl b : Nat) (dm : DM) (cap : OCap) :
    Except Unit DM :=
  if capLe0 cap then .ok (finalizeDM logDelta dm)
  else
    match processLines logDelta pyFloat
        ((pySplit '\n' (sliceBytes content hl b)).reverse) dm cap with
    | .error () => .error ()
    | .ok (dm', _, _) => .ok (finalizeDM logDelta dm')

theorem restoreLoop_eq_prefix (lo : Bool) (pf : List Char → Option PyF)
    {content : List Char} {hl : Nat} (wf : WfHeader content hl) :
    ∀ (b : Nat) (reload : ℕ+) (dm : DM) (cap : OCap),
      hl ≤ b → b ≤ content.length →
      (b = content.length ∨ content[b - 1]? = some '\n') →
      restoreLoop lo pf content hl b reload dm cap
        = refProcessPrefix lo pf content hl b dm cap := by
  obtain ⟨wf2, wfle, wfnl, wfnn⟩ := wf
  have hdr : readlineEnd content (hl - 2) = hl :=
    readlineEnd_header wf2 wfle wfnl wfnn
  intro b reload dm cap
  induction b, reload, dm, cap using restoreLoop.induct lo pf content hl with
  | case1 readPos reload dm cap hcap =>
    intro _ _ _
    rw [restoreLoop.eq_def, refProcessPrefix]
    simp only [hcap]
    simp [show capLe0 cap = true from hcap]
  | case2 readPos reload dm cap hcap hA hproc =>
    intro hb1 hb2 hb3
    rw [hdr] at hproc
    rw [restoreLoop.eq_def, refProcessPrefix]
    simp only [if_neg hcap, dif_pos hA, hdr, hproc]
  | case3 readPos reload dm cap hcap hA dm' cap' stop hproc =>
    intro hb1 hb2 hb3
    rw [hdr] at hproc
    rw [restoreLoop.eq_def, refProcessPrefix]
    simp only [if_neg hcap, dif_pos hA, hdr, hproc]
  | case4 readPos reload dm cap hcap hA hproc =>
    intro hb1 hb2 hb3
    have hAle : hl + (reload : ℕ) ≤ readPos := by omega
    have hr1 : 1 ≤ (reload : ℕ) := reload.one_le
    set a := readlineEnd content (readPos - (reload : ℕ)) with haf
    have ha_len : a ≤ content.length := readlineEnd_le content _
    have ha_le : a ≤ readPos := by
      rcases hb3 with h | h
      · omega
      · have := readlineEnd_le_of_nl h
          (by omega : readPos - (reload : ℕ) ≤ readPos - 1)
        omega
    rw [restoreLoop.eq_def]
    simp only [if_neg hcap, dif_neg hA]
    rw [← haf, hproc]
    by_cases hab : a = readPos
    · -- empty chunk: processing `[""]` cannot raise
      exfalso
      rw [hab, sliceBytes_self] at hproc
      rw [show (pySplit '\n' ([] : List Char)).reverse = [[]] from rfl,
        processLines_empty_line] at hproc
      simp [processLines] at hproc
    · -- the chunk `[a, readPos)` raised; so does whole-prefix processing
      have halt : a < readPos := lt_of_le_of_ne ha_le hab
      have hne : a ≠ content.length := by omega
      obtain ⟨i, hfi, hai, hanl⟩ := readlineEnd_get (haf ▸ hne)
      rw [← haf] at hai
      have hhla : hl < a := by omega
      have hnl_a : content[a - 1]? = some '\n' := by
        have he : a - 1 = readPos - (reload : ℕ) + i := by omega
        rw [he]
        exact hanl
      have hlastP : (sliceBytes content hl a).getLast? = some '\n' := by
        rw [sliceBytes_getLast hhla ha_len]
        exact hnl_a
      have hrev : (pySplit '\n' (sliceBytes content hl readPos)).reverse
          = (pySplit '\n' (sliceBytes content a readPos)).reverse
            ++ (pySplit '\n' (sliceBytes content hl a)).dropLast.reverse := by
        rw [sliceBytes_split (le_of_lt hhla) ha_le,
          pySplit_append_endSep _ (Or.inl hlastP), List.reverse_append]
      rw [refProcessPrefix]
      simp only [if_neg hcap]
      rw [hrev, processLines_append, hproc]
  | case5 readPos reload dm cap hcap hA dm' cap' stop hproc ih =>
    intro hb1 hb2 hb3
    have hAle : hl + (reload : ℕ) ≤ readPos := by omega
    have hr1 : 1 ≤ (reload : ℕ) := reload.one_le
    set a := readlineEnd content (readPos - (reload : ℕ)) with haf
    have ha_len : a ≤ content.length := readlineEnd_le content _
    have ha_le : a ≤ readPos := by
      rcases hb3 with h | h
      · omega
      · have := readlineEnd_le_of_nl h
          (by omega : readPos - (reload : ℕ) ≤ readPos - 1)
        omega
    rw [restoreLoop.eq_def]
    simp only [if_neg hcap, dif_neg hA]
    rw [← haf, hproc]
    show restoreLoop lo pf content hl a (reload * 2) dm' cap'
      = refProcessPrefix lo pf content hl readPos dm cap
    by_cases hab : a = readPos
    · -- empty chunk: state unchanged, recurse at the same position
      have hproc' := hproc
      rw [hab, sliceBytes_self] at hproc'
      rw [show (pySplit '\n' ([] : List Char)).reverse = [[]] from rfl,
        processLines_empty_line] at hproc'
      simp only [processLines, Except.ok.injEq, Prod.mk.injEq] at hproc'
      obtain ⟨hdm, hcapeq, hstop⟩ := hproc'
      rw [ih (by omega) (by omega) (by rw [hab]; exact hb3), hab, ← hdm, ← hcapeq]
    · -- proper chunk: peel it off the prefix and use the IH for the rest
      have halt : a < readPos := lt_of_le_of_ne ha_le hab
      have hne : a ≠ content.length := by omega
      obtain ⟨i, hfi, hai, hanl⟩ := readlineEnd_get (haf ▸ hne)
      rw [← haf] at hai
      have hhla : hl < a := by omega
      have hnl_a : content[a - 1]? = some '\n' := by
        have he : a - 1 = readPos - (reload : ℕ) + i := by omega
        rw [he]
        exact hanl
      have hlastP : (sliceBytes content hl a).getLast? = some '\n' := by
        rw [sliceBytes_getLast hhla ha_len]
        exact hnl_a
      have hrev : (pySplit '\n' (sliceBytes content hl readPos)).reverse
          = (pySplit '\n' (sliceBytes content a readPos)).reverse
            ++ (pySplit '\n' (sliceBytes content hl a)).dropLast.reverse := by
        rw [sliceBytes_split (le_of_lt hhla) ha_le,
          pySplit_append_endSep _ (Or.inl hlastP), List.reverse_append]
      rw [ih (by omega) (by omega) (Or.inr hnl_a)]
      rw [refProcessPrefix, refProcessPrefix]
      simp only [if_neg hcap]
      rw [hrev, processLines_append, hproc]
      cases stop with
      | true =>
        have hc' : capLe0 cap' = true := processLines_stop_true lo pf hproc
        simp [hc']
      | false =>
        have hc' : capLe0 cap' = false :=
          processLines_ok_false_cap lo pf (by simpa using hcap) hproc
        have hP : (pySplit '\n' (sliceBytes content hl a)).reverse
            = [] :: (pySplit '\n' (sliceBytes content hl a)).dropLast.reverse :=
          pySplit_endSep_reverse (Or.inl hlastP)
        rw [if_neg (show ¬capLe0 cap' = true by simp [hc'])]
        rw [hP, processLines_empty_line]
        rfl

/-- The chunked restore equals the one-piece reference restore, for every
positive initial reload size, every mode, every field parser and every
record budget. -/
theorem restoreData_eq_ref (lo : Bool) (pf : List Char → Option PyF)
    {content : List Char} {hl : Nat} (wf : WfHeader content hl)
    (init : ℕ+) (dm : DM) (cap : OCap) :
    restoreData lo pf content hl init dm cap = restoreRef lo pf content hl dm cap := by
  have h := restoreLoop_eq_prefix lo pf wf content.length init dm cap
    wf.2.1 le_rfl (Or.inl rfl)
  rw [restoreData, h, refProcessPrefix, restoreRef, sliceBytes_full]

/-- **C9.**  For every well-formed backing file and every optional record
cap, the result of `restore_data` is independent of the initial reload
chunk size: restoring with initial chunk sizes of 1, 10, 1000 and 100000
bytes produces identical in-memory column contents (and this holds for
every data-matrix argument, in both logging modes, and for every field
parser). -/
theorem claim_C9 (lo : Bool) (pf : List Char → Option PyF)
    {content : List Char} {hl : Nat} (wf : WfHeader content hl)
    (dm : DM) (cap : OCap) :
    restoreData lo pf content hl 1 dm cap = restoreData lo pf content hl 10 dm cap ∧
    restoreData lo pf content hl 10 dm cap
      = restoreData lo pf content hl 1000 dm cap ∧
    restoreData lo pf content hl 1000 dm cap
      = restoreData lo pf content hl 100000 dm cap := by
  refine ⟨?_, ?_, ?_⟩ <;>
    rw [restoreData_eq_ref lo pf wf, restoreData_eq_ref lo pf wf]

/-- Witness for C9: a concrete two-record absolute-mode file satisfying the
well-formedness hypothesis, restored with a record cap of 1. -/
theorem claim_C9_witness :
    WfHeader ("logdbcsv,version=1.0,delta=0\nTime,s0 \n1,2\n3,4\n").toList 38 ∧
      (restoreData false (fun _ => some (.num 0))
          ("logdbcsv,version=1.0,delta=0\nTime,s0 \n1,2\n3,4\n").toList 38 1
          [some [], some []] (some 1)
        = restoreData false (fun _ => some (.num 0))
          ("logdbcsv,version=1.0,delta=0\nTime,s0 \n1,2\n3,4\n").toList 38 10
          [some [], some []] (some 1)) :=
  ⟨by decide, (claim_C9 false (fun _ => some (.num 0)) (by decide)
    [some [], some []] (some 1)).1⟩

/-! ## `_LogDbCsv.__init__`: file creation, header parsing, header rewrite

Source: `src/libs/logdb.py` lines 62-144.  The model is a total function:
no statement on any control path of `__init__` raises (the corrupt-header
path logs and renames; the `{"0":...,"1":...}` dictionary lookup is guarded
by the `delta=[01]` full match; the padding expression `" " * n` yields an
empty string for a non-positive `n`).  OS-level I/O failures are outside
the model. -/

/-- `CSV_HEADER_ROW_LENGTH`. -/
def CSV_HEADER_ROW_LENGTH : Nat := 2048

/-- `" " * n` with Python semantics: empty for a non-positive count. -/
def pySpaces (n : Int) : List Char := List.replicate n.toNat ' '

/-- The info line `logdbcsv,version=1.0,delta=<0|1>` (without newline). -/
def fileInfoLine (log_delta : Bool) : List Char :=
  ("logdbcsv,version=1.0,delta=" ++ (if log_delta then "1" else "0")).toList

/-- `",".join(all_labels)` as a byte string. -/
def labelLineChars (all_labels : List String) : List Char :=
  List.intercalate [','] (all_labels.map String.toList)

/-- The label line as written: comma-joined labels, right-padded with
`CSV_HEADER_ROW_LENGTH - len(label_line) - len(file_info_line)` spaces.
There is no overflow check: when the count is non-positive the line is
written unpadded. -/
def labelLinePadded (log_delta : Bool) (all_labels : List String) : List Char :=
  labelLineChars all_labels
    ++ pySpaces ((CSV_HEADER_ROW_LENGTH : Int)
        - (labelLineChars all_labels).length
        - (fileInfoLine log_delta).length)

/-- The two header lines written by `__init__` (lines 121-136). -/
def headerChars (log_delta : Bool) (all_labels : List String) : List Char :=
  fileInfoLine log_delta ++ '\n' :: (labelLinePadded log_delta all_labels ++ ['\n'])

/-- The observable result of `_LogDbCsv.__init__`: the rewritten main file,
the renamed-aside backup (corrupt-header path), and the object state
`self.labels`, `self.log_delta`, `self.header_length`. -/
structure OpenResult where
  content : List Char
  backup : Option (List Char)
  labels : List String
  log_delta : Bool
  header_length : Option Nat
  deriving DecidableEq, Repr

/-- Common tail of `__init__` (lines 107-144): compute `new_labels` and
`all_labels`, and if there are new labels overwrite the two header lines
in place at the start of the file (the remainder of the file is untouched,
`f.write` at position 0 replaces exactly the bytes it writes). -/
def openFinish (existing_labels : List String) (backup : Option (List Char))
    (cur : Option (List Char × Nat)) (log_delta : Bool)
    (labels : List String) : OpenResult :=
  let new_labels := labels.filter (fun l => l ∉ existing_labels)
  let all_labels := existing_labels ++ new_labels
  let base : List Char := match cur with
    | some (c, _) => c
    | none => []
  { content :=
      if new_labels = [] then base
      else headerChars log_delta all_labels
        ++ base.drop (headerChars log_delta all_labels).length,
    backup := backup,
    labels := all_labels,
    log_delta := log_delta,
    header_length := cur.map Prod.snd }

/-- `_LogDbCsv.__init__`: `file = none` models an absent file (created
fresh); `file = some content` an existing file, whose two header lines are
read and validated.  An unrecognized info line causes the existing file to
be renamed aside (`backup`) and a fresh file to be created — note that the
labels parsed from the second line of the corrupt file remain in
`existing_labels`.  For a recognized info line the file's stored mode
overrides the requested `log_delta` (a mismatch is only logged). -/
def openCsv (labels : List String) (file : Option (List Char))
    (log_delta : Bool) : OpenResult :=
  match file with
  | none => openFinish [] none none log_delta labels
  | some content =>
    let p1 := readlineEnd content 0
    let p2 := readlineEnd content p1
    let file_info := pySplit ',' (pyStrip (sliceBytes content 0 p1))
    let existing_labels :=
      (pySplit ',' (sliceBytes content p1 p2)).map (fun l => String.mk (pyStrip l))
    if file_info.length = 3 ∧ file_info.headI = "logdbcsv".toList
        ∧ (file_info.getD 2 [] = "delta=0".toList
           ∨ file_info.getD 2 [] = "delta=1".toList) then
      openFinish existing_labels none (some (content, p2))
        (file_info.getD 2 [] = "delta=1".toList) labels
    else
      openFinish existing_labels (some content) none log_delta labels

/-! ## Parsing back a header written by this module -/

/-- Labels as the module itself writes them: no whitespace characters and
no commas (so the comma-joined label line parses back to the same list).
The time label `"Time"` and all sensor labels of the bridge satisfy this. -/
def GoodLabel (l : String) : Prop :=
  ∀ c ∈ l.toList, pyWs c = false ∧ c ≠ ','

instance (l : String) : Decidable (GoodLabel l) := by
  unfold GoodLabel
  infer_instance

lemma findNl_append_nl {A : List Char} (B : List Char) (h : '\n' ∉ A) :
    findNl (A ++ '\n' :: B) = some A.length := by
  induction A with
  | nil => simp [findNl]
  | cons c cs ih =>
    have hc : c ≠ '\n' := by
      intro hc
      exact h (by simp [hc])
    have := ih (by intro hm; exact h (by simp [hm]))
    simp [findNl, hc, this]

lemma readlineEnd_drop_append {content : List Char} {p : Nat} {A B : List Char}
    (hdrop : content.drop p = A ++ '\n' :: B) (h : '\n' ∉ A) :
    readlineEnd content p = p + A.length + 1 := by
  unfold readlineEnd
  rw [hdrop, findNl_append_nl B h]

lemma dropWhile_all_false {p : Char → Bool} {l : List Char}
    (h : ∀ x ∈ l, p x = false) : l.dropWhile p = l := by
  cases l with
  | nil => rfl
  | cons c cs => simp [List.dropWhile_cons, h c (by simp)]

/-- Stripping a clean string with a trailing all-whitespace block yields the
clean string. -/
lemma pyStrip_clean {s t : List Char} (hs : ∀ c ∈ s, pyWs c = false)
    (ht : ∀ c ∈ t, pyWs c = true) : pyStrip (s ++ t) = s := by
  cases s with
  | nil =>
    simp only [List.nil_append, pyStrip]
    rw [List.dropWhile_eq_nil_iff.mpr ht]
    rfl
  | cons c s' =>
    unfold pyStrip
    rw [List.cons_append, List.dropWhile_cons, if_neg (by simp [hs c (by simp)])]
    rw [show (c :: (s' ++ t)).reverse = t.reverse ++ (c :: s').reverse by simp]
    rw [List.dropWhile_append, if_pos (by
      rw [List.dropWhile_eq_nil_iff.mpr
        (by intro x hx; exact ht x (List.mem_reverse.mp hx))]
      rfl)]
    rw [dropWhile_all_false
      (by intro x hx; exact (hs x (List.mem_reverse.mp hx)))]
    simp

lemma pySplit_no_sep {sep : Char} {s : List Char} (h : sep ∉ s) :
    pySplit sep s = [s] := by
  induction s with
  | nil => rfl
  | cons c cs ih =>
    rw [pySplit_cons, if_neg (by intro hc; exact h (by simp [hc]))]
    rw [ih (by intro hm; exact h (by simp [hm]))]
    rfl

lemma pySplit_append_sep_cons {sep : Char} {p : List Char} (R : List Char)
    (h : sep ∉ p) : pySplit sep (p ++ sep :: R) = p :: pySplit sep R := by
  induction p with
  | nil =>
    rw [List.nil_append, pySplit_cons, if_pos rfl]
  | cons c p' ih =>
    rw [List.cons_append, pySplit_cons,
      if_neg (by intro hc; exact h (by simp [hc]))]
    rw [ih (by intro hm; exact h (by simp [hm]))]
    rfl

lemma labelLineChars_single (l : String) : labelLineChars [l] = l.toList := by
  simp [labelLineChars, List.intercalate]

lemma labelLineChars_cons_cons (l l2 : String) (rest : List String) :
    labelLineChars (l :: l2 :: rest)
      = l.toList ++ ',' :: labelLineChars (l2 :: rest) := by
  simp [labelLineChars, List.intercalate, List.intersperse]

/-- A label line written by this module (comma-joined good labels plus any
trailing whitespace block, e.g. the padding and the final newline) parses
back — split on commas, strip each piece — to exactly the same labels. -/
lemma parse_labels {t : List Char} :
    ∀ {ls : List String}, ls ≠ [] → (∀ l ∈ ls, GoodLabel l) →
      (∀ c ∈ t, pyWs c = true) → ',' ∉ t →
      (pySplit ',' (labelLineChars ls ++ t)).map (fun l => String.mk (pyStrip l))
        = ls
  | [], h, _, _, _ => absurd rfl h
  | [l], _, hg, ht, htc => by
    rw [labelLineChars_single]
    rw [pySplit_no_sep (by
      intro hm
      rcases List.mem_append.mp hm with hm | hm
      · exact ((hg l (by simp)) ',' hm).2 rfl
      · exact htc hm)]
    rw [List.map_singleton,
      pyStrip_clean (fun c hc => ((hg l (by simp)) c hc).1) ht]
    rfl
  | l :: l2 :: rest, _, hg, ht, htc => by
    rw [labelLineChars_cons_cons, List.append_assoc, List.cons_append,
      pySplit_append_sep_cons _ (by
        intro hm
        exact ((hg l (by simp)) ',' hm).2 rfl)]
    rw [List.map_cons]
    rw [parse_labels (by simp) (fun x hx => hg x (by simp [hx])) ht htc]
    have hstrip : pyStrip l.toList = l.toList := by
      have := pyStrip_clean (t := []) (fun c hc => ((hg l (by simp)) c hc).1)
        (by simp)
      simpa using this
    rw [hstrip]
    rfl

lemma fileInfoLine_no_nl (ld : Bool) : '\n' ∉ fileInfoLine ld := by
  cases ld <;> decide

lemma fileInfoLine_no_ws (ld : Bool) : ∀ c ∈ fileInfoLine ld, pyWs c = false := by
  cases ld <;> decide

lemma mem_labelLineChars {c : Char} :
    ∀ {ls : List String}, c ∈ labelLineChars ls →
      c = ',' ∨ ∃ l ∈ ls, c ∈ l.toList
  | [] => by
    intro h
    simp [labelLineChars, List.intercalate] at h
  | [l] => by
    rw [labelLineChars_single]
    intro h
    exact Or.inr ⟨l, by simp, h⟩
  | l :: l2 :: rest => by
    rw [labelLineChars_cons_cons]
    intro h
    rcases List.mem_append.mp h with h | h
    · exact Or.inr ⟨l, by simp, h⟩
    · rcases List.mem_cons.mp h with h | h
      · exact Or.inl h
      · rcases mem_labelLineChars h with h | ⟨l', hl', hc⟩
        · exact Or.inl h
        · exact Or.inr ⟨l', by simp [hl'], hc⟩

lemma labelLinePadded_not_nl {ld : Bool} {ls : List String}
    (hg : ∀ l ∈ ls, GoodLabel l) : '\n' ∉ labelLinePadded ld ls := by
  intro hm
  unfold labelLinePadded at hm
  rcases List.mem_append.mp hm with h | h
  · rcases mem_labelLineChars h with h | ⟨l, hl, hc⟩
    · exact absurd h (by decide)
    · have := (hg l hl '\n' hc).1
      simp [pyWs] at this
  · have := List.eq_of_mem_replicate h
    exact absurd this (by decide)

lemma labelLinePadded_ne_nil (ld : Bool) (ls : List String) :
    labelLinePadded ld ls ≠ [] := by
  unfold labelLinePadded
  intro h
  rcases List.append_eq_nil.mp h with ⟨h1, h2⟩
  unfold pySpaces at h2
  rw [List.replicate_eq_nil] at h2
  rw [h1] at h2
  simp at h2
  cases ld <;> simp [fileInfoLine, CSV_HEADER_ROW_LENGTH] at h2 <;> omega

/-- A file written by this module satisfies the restore well-formedness
conditions at the length of its header. -/
lemma wfHeader_headerChars (ld : Bool) {ls : List String} (body : List Char)
    (hg : ∀ l ∈ ls, GoodLabel l) :
    WfHeader (headerChars ld ls ++ body) (headerChars ld ls).length := by
  have hlpne := labelLinePadded_ne_nil ld ls
  have hlplen : 1 ≤ (labelLinePadded ld ls).length := List.length_pos.mpr hlpne
  have hA : headerChars ld ls ++ body
      = (fileInfoLine ld ++ '\n' :: labelLinePadded ld ls) ++ '\n' :: body := by
    simp [headerChars]
  have hAlen : (headerChars ld ls).length
      = (fileInfoLine ld ++ '\n' :: labelLinePadded ld ls).length + 1 := by
    simp [headerChars]
    omega
  have hApos : 1 ≤ (fileInfoLine ld ++ '\n' :: labelLinePadded ld ls).length := by
    simp
    omega
  refine ⟨by omega, by simp, ?_, ?_⟩
  · rw [hA, hAlen, Nat.add_sub_cancel, List.getElem?_append_right (le_refl _)]
    simp
  · rw [hA, hAlen]
    have hidx : (fileInfoLine ld ++ '\n' :: labelLinePadded ld ls).length + 1 - 2
        = (fileInfoLine ld ++ '\n' :: labelLinePadded ld ls).length - 1 := by
      omega
    have hga : ∀ (l2 : List Char) (n : Nat),
        ((fileInfoLine ld ++ '\n' :: labelLinePadded ld ls) ++ l2)[n]?
          = if n < (fileInfoLine ld ++ '\n' :: labelLinePadded ld ls).length
            then (fileInfoLine ld ++ '\n' :: labelLinePadded ld ls)[n]?
            else l2[n - (fileInfoLine ld ++ '\n' :: labelLinePadded ld ls).length]? :=
      fun _ _ => List.getElem?_append
    rw [hidx, hga]
    rw [if_pos (by omega)]
    rw [show fileInfoLine ld ++ '\n' :: labelLinePadded ld ls
        = (fileInfoLine ld ++ ['\n']) ++ labelLinePadded ld ls from by simp]
    rw [List.getElem?_append_right (by simp; omega)]
    intro hx
    exact labelLinePadded_not_nl hg (List.getElem?_mem hx)

lemma headerChars_decomp (ld : Bool) (ls : List String) (body : List Char) :
    headerChars ld ls ++ body
      = (fileInfoLine ld ++ ['\n']) ++ (labelLinePadded ld ls ++ '\n' :: body) := by
  simp [headerChars]

/-- Reopening a file written by this module, with exactly the labels already
present in its header, changes nothing: no new labels, no header rewrite,
no backup; the stored mode is used, and `header_length` is the length of
the two header lines. -/
lemma openCsv_reopen (ld : Bool) {ls : List String} (body : List Char)
    (hls : ls ≠ []) (hg : ∀ l ∈ ls, GoodLabel l) :
    openCsv ls (some (headerChars ld ls ++ body)) ld
      = ⟨headerChars ld ls ++ body, none, ls, ld,
          some (headerChars ld ls).length⟩ := by
  have hp1 : readlineEnd (headerChars ld ls ++ body) 0
      = (fileInfoLine ld).length + 1 := by
    have h := @readlineEnd_drop_append (headerChars ld ls ++ body)
      0 (fileInfoLine ld)
      (labelLinePadded ld ls ++ '\n' :: body)
      (by rw [List.drop_zero]; simp [headerChars])
      (fileInfoLine_no_nl ld)
    simpa using h
  have hs1 : sliceBytes (headerChars ld ls ++ body) 0
      ((fileInfoLine ld).length + 1) = fileInfoLine ld ++ ['\n'] := by
    unfold sliceBytes
    rw [List.drop_zero, headerChars_decomp,
      show (fileInfoLine ld).length + 1 - 0
        = (fileInfoLine ld ++ ['\n']).length by simp]
    exact List.take_left _ _
  have hfi : pySplit ',' (pyStrip (fileInfoLine ld ++ ['\n']))
      = ["logdbcsv".toList, "version=1.0".toList,
         (if ld then "delta=1" else "delta=0").toList] := by
    rw [pyStrip_clean (fileInfoLine_no_ws ld) (by decide)]
    cases ld <;> decide
  have hp2 : readlineEnd (headerChars ld ls ++ body)
      ((fileInfoLine ld).length + 1)
      = (fileInfoLine ld).length + 1 + (labelLinePadded ld ls).length + 1 :=
    @readlineEnd_drop_append (headerChars ld ls ++ body)
      ((fileInfoLine ld).length + 1)
      (labelLinePadded ld ls) body
      (by
        rw [headerChars_decomp,
          show (fileInfoLine ld).length + 1
            = (fileInfoLine ld ++ ['\n']).length by simp,
          List.drop_left])
      (labelLinePadded_not_nl hg)
  have hs2 : sliceBytes (headerChars ld ls ++ body)
      ((fileInfoLine ld).length + 1)
      ((fileInfoLine ld).length + 1 + (labelLinePadded ld ls).length + 1)
      = labelLinePadded ld ls ++ ['\n'] := by
    unfold sliceBytes
    rw [headerChars_decomp,
      show (fileInfoLine ld).length + 1
        = (fileInfoLine ld ++ ['\n']).length by simp,
      List.drop_left,
      show (fileInfoLine ld ++ ['\n']).length + (labelLinePadded ld ls).length + 1
          - (fileInfoLine ld ++ ['\n']).length
        = (labelLinePadded ld ls ++ ['\n']).length by simp; omega,
      show labelLinePadded ld ls ++ '\n' :: body
        = (labelLinePadded ld ls ++ ['\n']) ++ body by simp]
    exact List.take_left _ _
  have hparse : (pySplit ',' (labelLinePadded ld ls ++ ['\n'])).map
      (fun l => String.mk (pyStrip l)) = ls := by
    rw [show labelLinePadded ld ls ++ ['\n']
        = labelLineChars ls
          ++ (pySpaces ((CSV_HEADER_ROW_LENGTH : Int)
              - (labelLineChars ls).length - (fileInfoLine ld).length) ++ ['\n'])
        by simp [labelLinePadded]]
    refine parse_labels hls hg ?_ ?_
    · intro c hc
      rcases List.mem_append.mp hc with hc | hc
      · rw [List.eq_of_mem_replicate hc]
        decide
      · simp at hc
        rw [hc]
        decide
    · intro hc
      rcases List.mem_append.mp hc with hc | hc
      · exact absurd (List.eq_of_mem_replicate hc) (by decide)
      · simp at hc
  have hlen : (fileInfoLine ld).length + 1
      + (labelLinePadded ld ls).length + 1 = (headerChars ld ls).length := by
    simp [headerChars]
    omega
  have hfilter : ls.filter (fun l => decide (l ∉ ls)) = [] := by
    rw [List.filter_eq_nil]
    intro a ha
    simp [ha]
  simp only [openCsv]
  rw [hp1, hp2, hs1, hfi, hs2, hparse]
  rw [if_pos (show _ ∧ _ ∧ _ by cases ld <;> exact (by decide))]
  simp only [openFinish, hfilter]
  cases ld <;> simp [hlen.symm]

/-! ## `LogDB`: normalized record, in-memory append, retention eviction

Source: `src/libs/logdb.py`, `LogDB.insert` (lines 453-539).  The in-memory
database `self.data` is modelled as a total function from label to column
(labels never touched keep their value); the normalized `data_set`
dictionary as a partial function from label to value. -/

/-- A normalized `data_set`: a finite label→value dictionary. -/
abbrev DSet := String → Option PyF

/-- `data_set[label] if label in data_set else self._NAN` (the additional
`data_set[label] == ""` guard of the source compares a float with a string
and is never true for float values, which is all this model stores). -/
def resolveDS (ds : DSet) (l : String) : PyF := (ds l).getD PyF.nan

/-- The memory append of `LogDB.insert` (lines 519-522): one value appended
per iteration of `for label in self.labels`. -/
def appendMem (labels : List String) (ds : DSet)
    (data : String → List PyF) : String → List PyF :=
  labels.foldl (fun d l => Function.update d l (d l ++ [resolveDS ds l])) data

/-- The `while` walk of the duration cap (lines 532-536): number of
consecutive leading records (starting at the already-chosen count) whose
time value is older than `tstamp - retention_time*1.1`.  `nan < bound` is
false in Python, so NaN times stop the walk. -/
def takeWhileOld (bound : ℚ) : List PyF → Nat
  | [] => 0
  | v :: vs => if PyF.pyLtQ v bound then takeWhileOld bound vs + 1 else 0

/-- `nbr_rec_to_delete` (lines 527-536). -/
def nbrRecToDelete (nrr : Option Nat) (rt : Option ℚ)
    (data : String → List PyF) (tstamp : ℚ) : Nat :=
  let len := (data "Time").length
  let n1 : Nat :=
    match nrr with
    | some c => if (len : ℚ) > (c : ℚ) * 1.1 then len - c else 0
    | none => 0
  match rt with
  | some r => n1 + takeWhileOld (tstamp - r * 1.1) ((data "Time").drop n1)
  | none => n1

/-- The eviction slice (lines 537-539): `data[label] = data[label][nbr:]`
for every label, only when `nbr_rec_to_delete > 0`. -/
def evictMem (labels : List String) (n : Nat)
    (data : String → List PyF) : String → List PyF :=
  if n > 0 then
    labels.foldl (fun d l => Function.update d l ((d l).drop n)) data
  else data

/-- The in-memory part of `LogDB.insert` (lines 519-539): append the
normalized record, then apply retention. -/
def insertMem (labels : List String) (nrr : Option Nat) (rt : Option ℚ)
    (data : String → List PyF) (ds : DSet) (tstamp : ℚ) :
    String → List PyF :=
  evictMem labels
    (nbrRecToDelete nrr rt (appendMem labels ds data) tstamp)
    (appendMem labels ds data)

lemma appendMem_eq (ds : DSet) :
    ∀ {labels : List String}, labels.Nodup →
      ∀ (data : String → List PyF) (l : String),
        appendMem labels ds data l
          = if l ∈ labels then data l ++ [resolveDS ds l] else data l := by
  intro labels
  induction labels with
  | nil => intro _ data l; simp [appendMem]
  | cons a rest ih =>
    intro hnd data l
    have hnd' := hnd
    rw [List.nodup_cons] at hnd'
    unfold appendMem at *
    rw [List.foldl_cons, ih hnd'.2]
    by_cases hl : l ∈ rest
    · have hla : l ≠ a := fun h => hnd'.1 (h ▸ hl)
      rw [if_pos hl, if_pos (by simp [hl]), Function.update_noteq hla]
    · rw [if_neg hl]
      by_cases hla : l = a
      · subst hla
        rw [if_pos (by simp), Function.update_same]
      · rw [if_neg (by simp [hla, hl]), Function.update_noteq hla]

lemma evictMem_eq (n : Nat) :
    ∀ {labels : List String}, labels.Nodup →
      ∀ (data : String → List PyF) (l : String),
        evictMem labels n data l
          = if 0 < n ∧ l ∈ labels then (data l).drop n else data l := by
  intro labels hnd data l
  unfold evictMem
  by_cases hn : n > 0
  · rw [if_pos hn]
    induction labels generalizing data with
    | nil => simp
    | cons a rest ih =>
      have hnd' := hnd
      rw [List.nodup_cons] at hnd'
      rw [List.foldl_cons, ih hnd'.2]
      by_cases hl : l ∈ rest
      · have hla : l ≠ a := fun h => hnd'.1 (h ▸ hl)
        rw [if_pos (by simp [hl, hn]), if_pos (by simp [hl, hn]),
          Function.update_noteq hla]
      · by_cases hla : l = a
        · subst hla
          rw [if_neg (by simp [hl]), if_pos (by simp [hn]),
            Function.update_same]
        · rw [if_neg (by simp [hl]), if_neg (by simp [hla, hl]),
            Function.update_noteq hla]
  · rw [if_neg hn, if_neg (by intro h; exact hn h.1)]

/-- **C2.**  With a record-count cap `C` configured and no duration cap,
after every insert the resident record count is at most `⌈C * 1.1⌉`;
eviction removes records only from the oldest end (every column is a
`drop` of the appended column, by one common count); and when the count
cap alone triggers eviction the resident count becomes exactly `C`. -/
theorem claim_C2 (labels : List String) (C : Nat) (data : String → List PyF)
    (ds : DSet) (t : ℚ) (hnd : labels.Nodup) (hT : "Time" ∈ labels) :
    ((insertMem labels (some C) none data ds t) "Time").length
        ≤ Nat.ceil ((C : ℚ) * 1.1) ∧
    (∃ k : Nat, ∀ l ∈ labels,
      insertMem labels (some C) none data ds t l
        = (data l ++ [resolveDS ds l]).drop k) ∧
    ((((data "Time").length : ℚ) + 1 > (C : ℚ) * 1.1 →
      ((insertMem labels (some C) none data ds t) "Time").length = C)) := by
  set d1 := appendMem labels ds data with hd1
  have hT1 : d1 "Time" = data "Time" ++ [resolveDS ds "Time"] := by
    rw [hd1, appendMem_eq ds hnd, if_pos hT]
  have hlen1 : (d1 "Time").length = (data "Time").length + 1 := by
    rw [hT1]; simp
  have hnbr : nbrRecToDelete (some C) none d1 t
      = (if ((data "Time").length : ℚ) + 1 > (C : ℚ) * 1.1
          then (data "Time").length + 1 - C else 0) := by
    unfold nbrRecToDelete
    rw [hlen1]
    show (if ((((data "Time").length + 1 : Nat)) : ℚ) > (C : ℚ) * 1.1
        then (data "Time").length + 1 - C else 0) = _
    rw [show ((((data "Time").length + 1 : Nat)) : ℚ)
        = ((data "Time").length : ℚ) + 1 by push_cast; ring]
  have hkey : ∀ l ∈ labels,
      insertMem labels (some C) none data ds t l
        = (data l ++ [resolveDS ds l]).drop (nbrRecToDelete (some C) none d1 t) := by
    intro l hl
    unfold insertMem
    rw [← hd1, evictMem_eq _ hnd]
    by_cases h0 : 0 < nbrRecToDelete (some C) none d1 t
    · rw [if_pos ⟨h0, hl⟩, hd1, appendMem_eq ds hnd, if_pos hl]
    · rw [if_neg (by intro h; exact h0 h.1), hd1, appendMem_eq ds hnd, if_pos hl]
      rw [show nbrRecToDelete (some C) none d1 t = 0 by omega]
      rfl
  have hClower : (((data "Time").length : ℚ) + 1 > (C : ℚ) * 1.1) →
      C < (data "Time").length + 1 := by
    intro hc
    have h1 : ((C : ℚ)) ≤ (C : ℚ) * 1.1 := by
      nth_rewrite 1 [show ((C : ℚ)) = (C : ℚ) * 1 by ring]
      have : (0 : ℚ) ≤ (C : ℚ) := Nat.cast_nonneg C
      nlinarith
    have : ((C : ℚ)) < ((data "Time").length : ℚ) + 1 := lt_of_le_of_lt h1 hc
    exact_mod_cast this
  refine ⟨?_, ⟨nbrRecToDelete (some C) none d1 t, hkey⟩, ?_⟩
  · rw [hkey "Time" hT, List.length_drop, hnbr]
    by_cases hc : (((data "Time").length : ℚ) + 1 > (C : ℚ) * 1.1)
    · rw [if_pos hc]
      have hlt := hClower hc
      have hCle : C ≤ Nat.ceil ((C : ℚ) * 1.1) := by
        have h1 : ((C : ℚ)) ≤ (C : ℚ) * 1.1 := by
          have : (0 : ℚ) ≤ (C : ℚ) := Nat.cast_nonneg C
          nlinarith
        calc C = Nat.ceil ((C : ℚ)) := by rw [Nat.ceil_natCast]
        _ ≤ Nat.ceil ((C : ℚ) * 1.1) := Nat.ceil_le_ceil h1
      simp
      omega
    · rw [if_neg hc]
      push_neg at hc
      have h2 : (((data "Time").length : ℚ) + 1) ≤ (Nat.ceil ((C : ℚ) * 1.1) : ℚ) :=
        le_trans hc (Nat.le_ceil _)
      have h3 : (data "Time").length + 1 ≤ Nat.ceil ((C : ℚ) * 1.1) := by
        exact_mod_cast h2
      simp
      omega
  · intro hc
    rw [hkey "Time" hT, List.length_drop, hnbr, if_pos hc]
    have := hClower hc
    simp
    omega

/-- Witness for C2 at a concrete store: labels `["Time","s"]`, cap `C = 1`,
one resident record, an insert that triggers eviction. -/
theorem claim_C2_witness :
    (["Time", "s"] : List String).Nodup ∧ "Time" ∈ (["Time", "s"] : List String) ∧
    (((insertMem ["Time", "s"] (some 1) none
        (fun l => if l = "Time" then [PyF.num 0] else [PyF.num 5])
        (fun l => if l = "Time" then some (PyF.num 60) else some (PyF.num 7))
        60) "Time").length ≤ Nat.ceil ((1 : ℚ) * 1.1) ∧
      (∃ k : Nat, ∀ l ∈ (["Time", "s"] : List String),
        insertMem ["Time", "s"] (some 1) none
          (fun l => if l = "Time" then [PyF.num 0] else [PyF.num 5])
          (fun l => if l = "Time" then some (PyF.num 60) else some (PyF.num 7))
          60 l
          = ((fun l => if l = "Time" then [PyF.num 0] else [PyF.num 5]) l
              ++ [resolveDS (fun l => if l = "Time" then some (PyF.num 60)
                    else some (PyF.num 7)) l]).drop k) ∧
      ((((fun l => if l = "Time" then [PyF.num 0] else [PyF.num 5]) "Time"
            |>.length : ℚ) + 1 > (1 : ℚ) * 1.1 →
        ((insertMem ["Time", "s"] (some 1) none
          (fun l => if l = "Time" then [PyF.num 0] else [PyF.num 5])
          (fun l => if l = "Time" then some (PyF.num 60) else some (PyF.num 7))
          60) "Time").length = 1))) :=
  ⟨by decide, by decide,
    claim_C2 ["Time", "s"] 1
      (fun l => if l = "Time" then [PyF.num 0] else [PyF.num 5])
      (fun l => if l = "Time" then some (PyF.num 60) else some (PyF.num 7))
      60 (by decide) (by decide)⟩

/-! ## Equal column lengths (claim C8) -/

/-- All present columns of a data matrix have the same length `n`. -/
def DMUniform (dm : DM) (n : Nat) : Prop :=
  ∀ o ∈ dm, ∃ c, o = some c ∧ c.length = n

lemma deltaResolve_length : ∀ (c : PyF) (l : List PyF),
    (deltaResolve c l).length = l.length
  | _, [] => rfl
  | c, v :: vs => by
    unfold deltaResolve
    by_cases hv : v = PyF.inf
    · rw [if_pos hv]
      simp [deltaResolve_length]
    · rw [if_neg hv]
      simp [deltaResolve_length]

lemma addRecord_length (lo : Bool) (pf : List Char → Option PyF) :
    ∀ (dm : DM) (r : List (List Char)),
      (addRecord lo pf dm r).length = dm.length
  | [], _ => rfl
  | col :: dm, [] => by
    unfold addRecord
    simp [addRecord_length lo pf dm []]
  | col :: dm, f :: fs => by
    unfold addRecord
    simp [addRecord_length lo pf dm fs]

lemma addRecord_uniform (lo : Bool) (pf : List Char → Option PyF) :
    ∀ {dm : DM} {r : List (List Char)} {n : Nat}, DMUniform dm n →
      DMUniform (addRecord lo pf dm r) (n + 1)
  | [], _, n, _ => by intro o ho; simp [addRecord] at ho
  | col :: dm, [], n, h => by
    intro o ho
    unfold addRecord at ho
    rcases List.mem_cons.mp ho with ho | ho
    · obtain ⟨c, hc, hlen⟩ := h col (by simp)
      exact ⟨c ++ [PyF.nan], by rw [ho, hc]; rfl, by simp [hlen]⟩
    · exact addRecord_uniform lo pf (fun o ho' => h o (by simp [ho'])) o ho
  | col :: dm, f :: fs, n, h => by
    intro o ho
    unfold addRecord at ho
    rcases List.mem_cons.mp ho with ho | ho
    · obtain ⟨c, hc, hlen⟩ := h col (by simp)
      exact ⟨c ++ [str2float lo pf f], by rw [ho, hc]; rfl, by simp [hlen]⟩
    · exact addRecord_uniform lo pf (fun o ho' => h o (by simp [ho'])) o ho

lemma processLines_uniform (lo : Bool) (pf : List Char → Option PyF) :
    ∀ {L : List (List Char)} {dm : DM} {cap : OCap} {dm' : DM} {cap' : OCap}
      {st : Bool},
      processLines lo pf L dm cap = .ok (dm', cap', st) →
      (∃ n, DMUniform dm n) →
      (∃ n, DMUniform dm' n) ∧ dm'.length = dm.length
  | [], dm, cap, dm', cap', st, h, hu => by
    simp only [processLines, Except.ok.injEq, Prod.mk.injEq] at h
    rw [← h.1]
    exact ⟨hu, rfl⟩
  | line :: rest, dm, cap, dm', cap', st, h, hu => by
    simp only [processLines] at h
    by_cases h2 : (pySplit ',' (pyStrip line)).length < 2
    · rw [if_pos h2] at h
      exact processLines_uniform lo pf h hu
    · rw [if_neg h2] at h
      by_cases h3 : dm.length < (pySplit ',' (pyStrip line)).length
      · rw [if_pos h3] at h
        exact absurd h (by simp)
      · rw [if_neg h3] at h
        obtain ⟨n, hn⟩ := hu
        by_cases h4 : capLe0 (capDec cap) = true
        · rw [if_pos h4] at h
          simp only [Except.ok.injEq, Prod.mk.injEq] at h
          rw [← h.1]
          exact ⟨⟨n + 1, addRecord_uniform lo pf hn⟩, addRecord_length lo pf dm _⟩
        · rw [if_neg h4] at h
          have := processLines_uniform lo pf h ⟨n + 1, addRecord_uniform lo pf hn⟩
          exact ⟨this.1, this.2.trans (addRecord_length lo pf dm _)⟩

lemma finalizeDM_uniform (lo : Bool) {dm : DM} {n : Nat} (h : DMUniform dm n) :
    DMUniform (finalizeDM lo dm) n ∧ (finalizeDM lo dm).length = dm.length := by
  constructor
  · intro o ho
    unfold finalizeDM at ho
    obtain ⟨o', ho', rfl⟩ := List.mem_map.mp ho
    obtain ⟨c, hc, hlen⟩ := h o' ho'
    refine ⟨_, by rw [hc]; rfl, ?_⟩
    by_cases hlo : lo = true
    · simp [hlo, deltaResolve_length, hlen]
    · simp only [Bool.not_eq_true] at hlo
      simp [hlo, hlen]
  · simp [finalizeDM]

/-- The label-keyed view of the positional data matrix: in `LogDB.__init__`
the `data` dictionary entry of the i-th label is (aliases) the i-th entry
of `data_matrix`. -/
def dmToData (labels : List String) (dm : DM) : String → List PyF :=
  fun l => (dm.getD (labels.indexOf l) none).getD []

/-- Reachable in-memory states of a `LogDB`: freshly constructed without a
file; constructed over an existing well-formed file (the fresh columns are
populated by `restore_data`, capped by `number_retention_records`); or any
reachable state followed by an insert. -/
inductive ReachableDB (labels : List String) (nrr : Option Nat) (rt : Option ℚ) :
    (String → List PyF) → Prop
  | fresh : ReachableDB labels nrr rt (fun _ => [])
  | restored (lo : Bool) (pf : List Char → Option PyF) (content : List Char)
      (hl : Nat) (init : ℕ+) (dm' : DM) :
      WfHeader content hl →
      restoreData lo pf content hl init (labels.map fun _ => some [])
        (nrr.map fun n => (n : ℤ)) = .ok dm' →
      ReachableDB labels nrr rt (dmToData labels dm')
  | insert (data : String → List PyF) (ds : DSet) (t : ℚ) :
      ReachableDB labels nrr rt data →
      ReachableDB labels nrr rt (insertMem labels nrr rt data ds t)

/-- **C8.**  In every reachable state of the in-memory column store — after
construction (with or without restore from a well-formed backing file) and
after every insert, including inserts that trigger retention eviction — all
columns of declared labels have equal length. -/
theorem claim_C8 (labels : List String) (nrr : Option Nat) (rt : Option ℚ)
    (data : String → List PyF) (hnd : labels.Nodup)
    (hreach : ReachableDB labels nrr rt data) :
    ∀ l1 ∈ labels, ∀ l2 ∈ labels, (data l1).length = (data l2).length := by
  induction hreach with
  | fresh => intro l1 _ l2 _; rfl
  | restored lo pf content hl init dm' wf hres =>
    intro l1 h1 l2 h2
    rw [restoreData_eq_ref lo pf wf] at hres
    have hu0 : DMUniform (labels.map fun _ => some ([] : List PyF)) 0 := by
      intro o ho
      obtain ⟨l, _, rfl⟩ := List.mem_map.mp ho
      exact ⟨[], rfl, rfl⟩
    have hdu : (∃ n, DMUniform dm' n) ∧ dm'.length = labels.length := by
      unfold restoreRef at hres
      by_cases hcap : capLe0 (nrr.map fun n => (n : ℤ)) = true
      · rw [if_pos hcap] at hres
        simp only [Except.ok.injEq] at hres
        rw [← hres]
        have h := finalizeDM_uniform lo (n := 0) hu0
        exact ⟨⟨0, h.1⟩, by rw [h.2]; simp⟩
      · rw [if_neg hcap] at hres
        rcases hp : processLines lo pf ((pySplit '\n' (content.drop hl)).reverse)
            (labels.map fun _ => some []) (nrr.map fun n => (n : ℤ))
          with _ | ⟨dm2, cap2, st2⟩
        · rw [hp] at hres
          exact absurd hres (by simp)
        · rw [hp] at hres
          simp only [Except.ok.injEq] at hres
          rw [← hres]
          obtain ⟨⟨n, hn⟩, hlen⟩ := processLines_uniform lo pf hp ⟨0, hu0⟩
          have h := finalizeDM_uniform lo hn
          refine ⟨⟨n, h.1⟩, ?_⟩
          rw [h.2, hlen]
          simp
    obtain ⟨⟨n, hn⟩, hlen⟩ := hdu
    have hval : ∀ l ∈ labels, (dmToData labels dm' l).length = n := by
      intro l hl
      unfold dmToData
      have hidx : labels.indexOf l < dm'.length := by
        rw [hlen]
        exact List.indexOf_lt_length.mpr hl
      have hget : dm'.getD (labels.indexOf l) none ∈ dm' := by
        rw [List.getD_eq_getElem?_getD]
        rcases hx : dm'[labels.indexOf l]? with _ | o
        · rw [List.getElem?_eq_none_iff] at hx
          omega
        · exact List.getElem?_mem (by rw [hx]; rfl)
      obtain ⟨c, hc, hclen⟩ := hn _ hget
      rw [hc]
      simpa using hclen
    rw [hval l1 h1, hval l2 h2]
  | insert data0 ds t _ ih =>
    intro l1 h1 l2 h2
    unfold insertMem
    rw [evictMem_eq _ hnd, evictMem_eq _ hnd,
      appendMem_eq ds hnd, appendMem_eq ds hnd, if_pos h1, if_pos h2]
    set k := nbrRecToDelete nrr rt (appendMem labels ds data0) t
    by_cases h0 : 0 < k
    · rw [if_pos ⟨h0, h1⟩, if_pos ⟨h0, h2⟩]
      simp [ih l1 h1 l2 h2]
    · rw [if_neg (by intro h; exact h0 h.1), if_neg (by intro h; exact h0 h.1)]
      simp [ih l1 h1 l2 h2]

/-- Witness for C8: one concrete insert on a fresh store. -/
theorem claim_C8_witness :
    (["Time", "s"] : List String).Nodup ∧
    (∀ l1 ∈ (["Time", "s"] : List String), ∀ l2 ∈ (["Time", "s"] : List String),
      ((insertMem ["Time", "s"] none none (fun _ => [])
          (fun _ => some (PyF.num 1)) 0) l1).length
        = ((insertMem ["Time", "s"] none none (fun _ => [])
          (fun _ => some (PyF.num 1)) 0) l2).length) :=
  ⟨by decide,
    claim_C8 ["Time", "s"] none none _ (by decide)
      (ReachableDB.insert _ _ _ ReachableDB.fresh)⟩

/-! ## `_LogDbCsv.insert` (lines 310-363) and `LogDB.insert` normalization
(lines 486-517) -/

/-- One field of a delta-mode CSV line (lines 337-355): no previous value →
formatted value or `n`; previous value present → empty for an unchanged
real, formatted value for a changed real, `n` for real→NaN, empty for
NaN→NaN. -/
def csvFieldDelta (fmt : PyF → List Char) (lastv : Option PyF) (v : PyF) :
    List Char :=
  match lastv with
  | none => if v = PyF.nan then ['n'] else fmt v
  | some lv =>
      if v ≠ PyF.nan then (if PyF.pyEqB v lv then [] else fmt v)
      else (if lv ≠ PyF.nan then ['n'] else [])

/-- The field loop of `_LogDbCsv.insert` (lines 328-358): one field per
label; in delta mode `last_data_set[label]` is unconditionally updated to
the resolved value after encoding. -/
def csvInsert (fmt : PyF → List Char) (logDelta : Bool) (ds : DSet) :
    List String → (String → Option PyF) →
    List (List Char) × (String → Option PyF)
  | [], last => ([], last)
  | l :: ls, last =>
    if logDelta then
      let field := csvFieldDelta fmt (last l) (resolveDS ds l)
      let r := csvInsert fmt logDelta ds ls
        (Function.update last l (some (resolveDS ds l)))
      (field :: r.1, r.2)
    else
      let r := csvInsert fmt logDelta ds ls last
      ((if resolveDS ds l = PyF.nan then [] else fmt (resolveDS ds l)) :: r.1,
        r.2)

/-- The line written by `_LogDbCsv.insert` (lines 360-363). -/
def csvLineOf (fields : List (List Char)) : List Char :=
  List.intercalate [','] fields ++ ['\n']

/-- A value of the dictionary form of `LogDB.insert`'s `log_data`: either a
plain value or a nested group dictionary. -/
inductive DVal : Type
  | val : PyF → DVal
  | sub : List (String × PyF) → DVal

/-- `log_data` of `LogDB.insert`: a positional list or a (possibly nested)
dictionary, modelled as an ordered association list with distinct keys
(a Python dict). -/
inductive LogData : Type
  | list : List PyF → LogData
  | dict : List (String × DVal) → LogData

/-- Python dictionary assignment `data_set[k] = v`: overwrite in place or
append a new key. -/
def dsAssign (ds : List (String × PyF)) (k : String) (v : PyF) :
    List (String × PyF) :=
  if ds.any (fun p => p.1 = k) then
    ds.map (fun p => if p.1 = k then (k, v) else p)
  else ds ++ [(k, v)]

/-- Normalization of dictionary-shaped `log_data` (lines 499-505): start
from `{"Time": tstamp}`, then assign every flat key and every flattened
`group:subkey`. -/
def buildDataSet (tstamp : PyF) (m : List (String × DVal)) :
    List (String × PyF) :=
  m.foldl
    (fun ds p =>
      match p.2 with
      | .val v => dsAssign ds p.1 v
      | .sub m2 =>
          m2.foldl (fun ds' q => dsAssign ds' (p.1 ++ ":" ++ q.1) q.2) ds)
    [("Time", tstamp)]

/-- Normalization of list-shaped `log_data` (lines 493-498). -/
def buildDataSetList (tstamp : PyF) (labels : List String) (vs : List PyF) :
    List (String × PyF) :=
  ((labels.drop 1).zip vs).foldl (fun ds q => dsAssign ds q.1 q.2)
    [("Time", tstamp)]

/-- `data_set[l]` as a partial lookup. -/
def dsLookup (ds : List (String × PyF)) : DSet :=
  fun l => (ds.find? (fun p => p.1 = l)).map Prod.snd

/-- `LogDB.insert` (lines 453-539): normalize `log_data` (the failed shape
asserts are the `.error` cases), write the CSV line if a file is attached,
append to the in-memory columns and apply retention.  Returns the new
in-memory data, the written CSV line (if any) and the updated
`last_data_set`. -/
def logDbInsert (fmt : PyF → List Char) (logDelta : Bool) (hasCsv : Bool)
    (labels : List String) (nrr : Option Nat) (rt : Option ℚ)
    (last : String → Option PyF) (data : String → List PyF)
    (log_data : LogData) (tstamp : ℚ) :
    Except Unit ((String → List PyF) × Option (List Char)
      × (String → Option PyF)) :=
  match log_data with
  | .list vs =>
      if vs.length = labels.length - 1 then
        let ds := dsLookup (buildDataSetList (PyF.num tstamp) labels vs)
        let c := csvInsert fmt logDelta ds labels last
        .ok (insertMem labels nrr rt data ds tstamp,
          if hasCsv then some (csvLineOf c.1) else none,
          if hasCsv then c.2 else last)
      else .error ()
  | .dict m =>
      if (buildDataSet (PyF.num tstamp) m).length ≤ labels.length then
        let ds := dsLookup (buildDataSet (PyF.num tstamp) m)
        let c := csvInsert fmt logDelta ds labels last
        .ok (insertMem labels nrr rt data ds tstamp,
          if hasCsv then some (csvLineOf c.1) else none,
          if hasCsv then c.2 else last)
      else .error ()

lemma insertMem_no_caps (labels : List String) (data : String → List PyF)
    (ds : DSet) (t : ℚ) :
    insertMem labels none none data ds t = appendMem labels ds data := rfl

lemma dsLookup_not_mem {ds : List (String × PyF)} {l : String}
    (h : l ∉ ds.map Prod.fst) : dsLookup ds l = none := by
  unfold dsLookup
  rw [List.find?_eq_none.mpr]
  · rfl
  · intro x hx
    simp only [decide_eq_true_eq]
    intro hxl
    exact h (List.mem_map.mpr ⟨x, hx, hxl⟩)

lemma csvInsert_abs (fmt : PyF → List Char) (ds : DSet) :
    ∀ (labels : List String) (last : String → Option PyF),
      csvInsert fmt false ds labels last
        = (labels.map (fun l =>
            if resolveDS ds l = PyF.nan then [] else fmt (resolveDS ds l)),
           last)
  | [], last => rfl
  | l :: ls, last => by
    unfold csvInsert
    rw [if_neg (by simp)]
    simp [csvInsert_abs fmt ds ls last]

/-- **C10.**  A dictionary record whose flattened key set (including the
implicit time label) has at most `len(labels)` entries is inserted without
any error; keys that are not declared labels are silently ignored — their
values appear neither in the in-memory columns (columns of undeclared keys
are untouched) nor in the CSV line (whose fields are exactly one per
declared label) — and declared labels absent from the record are recorded
as NaN. -/
theorem claim_C10 (fmt : PyF → List Char) (labels : List String)
    (data : String → List PyF) (last : String → Option PyF)
    (m : List (String × DVal)) (t : ℚ) (hnd : labels.Nodup)
    (hcard : (buildDataSet (PyF.num t) m).length ≤ labels.length) :
    logDbInsert fmt false true labels none none last data (.dict m) t
      = .ok (appendMem labels (dsLookup (buildDataSet (PyF.num t) m)) data,
          some (csvLineOf (labels.map (fun l =>
            if resolveDS (dsLookup (buildDataSet (PyF.num t) m)) l = PyF.nan
            then [] else fmt (resolveDS (dsLookup (buildDataSet (PyF.num t) m)) l)))),
          last) ∧
    (∀ k, k ∉ labels →
      appendMem labels (dsLookup (buildDataSet (PyF.num t) m)) data k = data k) ∧
    (∀ l ∈ labels,
      appendMem labels (dsLookup (buildDataSet (PyF.num t) m)) data l
        = data l ++ [resolveDS (dsLookup (buildDataSet (PyF.num t) m)) l]) ∧
    (∀ l, l ∉ (buildDataSet (PyF.num t) m).map Prod.fst →
      resolveDS (dsLookup (buildDataSet (PyF.num t) m)) l = PyF.nan) := by
  refine ⟨?_, ?_, ?_, ?_⟩
  · simp only [logDbInsert]
    rw [if_pos hcard, csvInsert_abs, insertMem_no_caps]
    simp
  · intro k hk
    rw [appendMem_eq _ hnd, if_neg hk]
  · intro l hl
    rw [appendMem_eq _ hnd, if_pos hl]
  · intro l hl
    unfold resolveDS
    rw [dsLookup_not_mem hl]
    rfl

/-- Witness for C10: store with labels `["Time","s"]`, record
`{"junk": 9.0}` — two flattened keys, no error, `junk` ignored, `s`
recorded as NaN. -/
theorem claim_C10_witness :
    (["Time", "s"] : List String).Nodup ∧
    (buildDataSet (PyF.num 5) [("junk", DVal.val (PyF.num 9))]).length
      ≤ (["Time", "s"] : List String).length ∧
    (logDbInsert (fun _ => ['x']) false true ["Time", "s"] none none
        (fun _ => none) (fun _ => []) (.dict [("junk", DVal.val (PyF.num 9))]) 5
      = .ok (appendMem ["Time", "s"]
            (dsLookup (buildDataSet (PyF.num 5) [("junk", DVal.val (PyF.num 9))]))
            (fun _ => []),
          some (csvLineOf ((["Time", "s"] : List String).map (fun l =>
            if resolveDS (dsLookup (buildDataSet (PyF.num 5)
                [("junk", DVal.val (PyF.num 9))])) l = PyF.nan
            then [] else (fun _ => ['x'])
              (resolveDS (dsLookup (buildDataSet (PyF.num 5)
                [("junk", DVal.val (PyF.num 9))])) l)))),
          (fun _ => none))) :=
  ⟨by decide, by decide,
    (claim_C10 (fun _ => ['x']) ["Time", "s"] (fun _ => []) (fun _ => none)
      [("junk", DVal.val (PyF.num 9))] 5 (by decide) (by decide)).1⟩

lemma csvInsert_delta_last (fmt : PyF → List Char) (ds : DSet) :
    ∀ (labels : List String) (last : String → Option PyF) (k : String),
      (csvInsert fmt true ds labels last).2 k
        = if k ∈ labels then some (resolveDS ds k) else last k
  | [], last, k => by simp [csvInsert]
  | l :: ls, last, k => by
    unfold csvInsert
    rw [if_pos rfl]
    simp only []
    rw [csvInsert_delta_last fmt ds ls _ k]
    by_cases hk : k ∈ ls
    · rw [if_pos hk, if_pos (by simp [hk])]
    · rw [if_neg hk]
      by_cases hkl : k = l
      · subst hkl
        rw [if_pos (by simp), Function.update_same]
      · rw [if_neg (by simp [hkl, hk]), Function.update_noteq hkl]

lemma csvInsert_delta_fields (fmt : PyF → List Char) (ds : DSet) :
    ∀ (labels : List String) (last : String → Option PyF), labels.Nodup →
      (csvInsert fmt true ds labels last).1
        = labels.map (fun l => csvFieldDelta fmt (last l) (resolveDS ds l))
  | [], last, _ => rfl
  | l :: ls, last, hnd => by
    have hnd' := hnd
    rw [List.nodup_cons] at hnd'
    unfold csvInsert
    rw [if_pos rfl]
    simp only [List.map_cons]
    rw [csvInsert_delta_fields fmt ds ls _ hnd'.2]
    congr 1
    apply List.map_congr_left
    intro l' hl'
    have hne : l' ≠ l := by
      intro h
      exact hnd'.1 (h ▸ hl')
    rw [Function.update_noteq hne]

/-- The concrete delta scenario's first record
`{sens0: 5.8, sens1: 0.8, sens2: 6.8}`. -/
def scenDs1 : DSet := fun l =>
  if l = "sens0" then some (PyF.num (29/5))
  else if l = "sens1" then some (PyF.num (4/5))
  else if l = "sens2" then some (PyF.num (34/5)) else none

/-- The concrete delta scenario's second record
`{sens0: 5.8, sens1: 9.8, sens2: 6.8}`. -/
def scenDs2 : DSet := fun l =>
  if l = "sens0" then some (PyF.num (29/5))
  else if l = "sens1" then some (PyF.num (49/5))
  else if l = "sens2" then some (PyF.num (34/5)) else none

/-- **C6.**  Delta-mode field encoding of `_LogDbCsv.insert`: with no prior
last-value the field is the formatted value for a real (`n` for NaN); with
a prior last-value the field is empty for an unchanged real, the formatted
value for a changed real, `n` for real→NaN and empty for NaN→NaN; after
encoding, `last_data_set[label]` is unconditionally the new resolved value
(labels outside the label list are untouched).  In particular, for labels
`[sens0,sens1,sens2]`, inserting `{sens0:5.8,sens1:0.8,sens2:6.8}` and then
`{sens0:5.8,sens1:9.8,sens2:6.8}` yields `,9.8,` as the second data line
(before the terminating newline). -/
theorem claim_C6 (fmt : PyF → List Char) (labels : List String) (ds : DSet)
    (last : String → Option PyF) (hnd : labels.Nodup) :
    ((csvInsert fmt true ds labels last).1
      = labels.map (fun l => csvFieldDelta fmt (last l) (resolveDS ds l))) ∧
    (∀ l ∈ labels,
      (csvInsert fmt true ds labels last).2 l = some (resolveDS ds l)) ∧
    (∀ k, k ∉ labels → (csvInsert fmt true ds labels last).2 k = last k) ∧
    (fmt (PyF.num (49/5)) = "9.8".toList →
      List.intercalate [','] (csvInsert fmt true scenDs2
        ["sens0", "sens1", "sens2"]
        (csvInsert fmt true scenDs1 ["sens0", "sens1", "sens2"]
          (fun _ => none)).2).1
        = ",9.8,".toList) := by
  refine ⟨csvInsert_delta_fields fmt ds labels last hnd, ?_, ?_, ?_⟩
  · intro l hl
    rw [csvInsert_delta_last, if_pos hl]
  · intro k hk
    rw [csvInsert_delta_last, if_neg hk]
  · intro hfmt
    rw [csvInsert_delta_fields fmt scenDs2 _ _ (by decide)]
    have h1 : ∀ l ∈ (["sens0", "sens1", "sens2"] : List String),
        (csvInsert fmt true scenDs1 ["sens0", "sens1", "sens2"]
          (fun _ => none)).2 l = some (resolveDS scenDs1 l) := by
      intro l hl
      rw [csvInsert_delta_last, if_pos hl]
    rw [List.map_cons, List.map_cons, List.map_cons, List.map_nil]
    rw [h1 "sens0" (by decide), h1 "sens1" (by decide), h1 "sens2" (by decide)]
    have e0 : csvFieldDelta fmt (some (resolveDS scenDs1 "sens0"))
        (resolveDS scenDs2 "sens0") = [] := by
      simp [csvFieldDelta, scenDs1, scenDs2, resolveDS, PyF.pyEqB]
    have e1 : csvFieldDelta fmt (some (resolveDS scenDs1 "sens1"))
        (resolveDS scenDs2 "sens1") = fmt (PyF.num (49/5)) := by
      simp [csvFieldDelta, scenDs1, scenDs2, resolveDS, PyF.pyEqB]
      norm_num
    have e2 : csvFieldDelta fmt (some (resolveDS scenDs1 "sens2"))
        (resolveDS scenDs2 "sens2") = [] := by
      simp [csvFieldDelta, scenDs1, scenDs2, resolveDS, PyF.pyEqB]
    rw [e0, e1, e2, hfmt]
    decide

/-- Witness for C6 at concrete arguments (including a concrete formatter
mapping 9.8 to `"9.8"`). -/
theorem claim_C6_witness :
    (["sens0", "sens1", "sens2"] : List String).Nodup ∧
    ((fun v => if v = PyF.num (49/5) then "9.8".toList else ['x'])
        (PyF.num (49/5)) = "9.8".toList →
      List.intercalate [',']
        (csvInsert (fun v => if v = PyF.num (49/5) then "9.8".toList else ['x'])
          true scenDs2 ["sens0", "sens1", "sens2"]
          (csvInsert (fun v => if v = PyF.num (49/5) then "9.8".toList else ['x'])
            true scenDs1 ["sens0", "sens1", "sens2"] (fun _ => none)).2).1
        = ",9.8,".toList) :=
  ⟨by decide,
    (claim_C6 (fun v => if v = PyF.num (49/5) then "9.8".toList else ['x'])
      ["sens0", "sens1", "sens2"] scenDs1 (fun _ => none) (by decide)).2.2.2⟩

/-! ## `LogDB.get_labels_from_spec` (lines 541-595)

The regular-expression engine (`re.compile` / `re.fullmatch`) is Python
standard library, not repository code; it is abstracted as a boolean
matcher `fullmatch : pattern → label → Bool`.  (String equality is the
faithful instance for literal patterns without metacharacters; the
`re.compile` error path for malformed patterns is outside the model.) -/

/-- A value of the dictionary form of `label_specs`: one pattern or a list
of patterns. -/
inductive SubSpec : Type
  | one : String → SubSpec
  | many : List String → SubSpec

/-- `label_specs`: a single pattern string, a list of patterns, or a
dictionary of group → pattern(s). -/
inductive PatSpec : Type
  | str : String → PatSpec
  | list : List String → PatSpec
  | dict : List (String × SubSpec) → PatSpec

/-- The un-compiled `key_patterns` list (lines 568-580): dictionary entries
contribute `prefix + ":" + pattern` in dictionary order. -/
def keyPatterns : PatSpec → List String
  | .str p => [p]
  | .list ps => ps
  | .dict m =>
      m.foldl
        (fun acc pr =>
          match pr.2 with
          | .one p => acc ++ [pr.1 ++ ":" ++ p]
          | .many ps => acc ++ ps.map (fun p => pr.1 ++ ":" ++ p))
        []

/-- `LogDB.get_labels_from_spec` (lines 589-595): start from `["Time"]`,
then **for each pattern** scan all declared labels after the time label and
append every full match. -/
def getLabelsFromSpec (fullmatch : String → String → Bool)
    (dbLabels : List String) (spec : PatSpec) : List String :=
  (keyPatterns spec).foldl
    (fun acc p => acc ++ (dbLabels.drop 1).filter (fun l => fullmatch p l))
    ["Time"]

/-- The behaviour claimed by the spec (label-declaration order, duplicates
impossible): the time label followed by every label matching **any**
pattern, scanning the declared labels once.  Stated for comparison with
the implementation. -/
def getLabelsFromSpecClaimed (fullmatch : String → String → Bool)
    (dbLabels : List String) (spec : PatSpec) : List String :=
  "Time" :: (dbLabels.drop 1).filter
    (fun l => (keyPatterns spec).any (fun p => fullmatch p l))

lemma foldl_append_flatMap {α β : Type} (f : α → List β) :
    ∀ (ps : List α) (init : List β),
      ps.foldl (fun acc p => acc ++ f p) init = init ++ ps.flatMap f
  | [], init => by simp
  | p :: ps, init => by
    rw [List.foldl_cons, foldl_append_flatMap f ps (init ++ f p)]
    simp

/-- **C4 (amended).**  `get_labels_from_spec` returns the time label
followed by, **for each pattern in pattern order**, every declared label
that full-matches that pattern in declaration order; a label matching
several patterns therefore occurs once per matching pattern (pattern-major
order, duplicates possible), not once in declaration order as the spec
claims. -/
theorem claim_C4 (fullmatch : String → String → Bool)
    (dbLabels : List String) (spec : PatSpec) :
    getLabelsFromSpec fullmatch dbLabels spec
      = "Time" :: (keyPatterns spec).flatMap
          (fun p => (dbLabels.drop 1).filter (fun l => fullmatch p l)) ∧
    (∀ l ∈ getLabelsFromSpec fullmatch dbLabels spec,
      l = "Time" ∨ (l ∈ dbLabels.drop 1 ∧ ∃ p ∈ keyPatterns spec,
        fullmatch p l = true)) := by
  have h := foldl_append_flatMap
    (fun p => (dbLabels.drop 1).filter (fun l => fullmatch p l))
    (keyPatterns spec) ["Time"]
  refine ⟨by rw [getLabelsFromSpec, h]; rfl, ?_⟩
  intro l hl
  rw [getLabelsFromSpec, h] at hl
  rcases List.mem_append.mp hl with hl | hl
  · left
    simpa using hl
  · right
    obtain ⟨p, hp, hlp⟩ := List.mem_flatMap.mp hl
    have := List.mem_filter.mp hlp
    exact ⟨this.1, p, hp, this.2⟩

/-- Counterexample to C4 as stated: labels `["Time","a","b"]`, literal
patterns `["b","a","a"]` (matcher: string equality, faithful for literal
regular expressions).  The implementation returns `["Time","b","a","a"]` —
pattern-major order with a duplicate — not the claimed
`["Time","a","b"]`. -/
theorem claim_C4_counterexample :
    getLabelsFromSpec (fun p l => p = l) ["Time", "a", "b"]
        (.list ["b", "a", "a"]) = ["Time", "b", "a", "a"] ∧
    getLabelsFromSpecClaimed (fun p l => p = l) ["Time", "a", "b"]
        (.list ["b", "a", "a"]) = ["Time", "a", "b"] ∧
    getLabelsFromSpec (fun p l => p = l) ["Time", "a", "b"]
        (.list ["b", "a", "a"])
      ≠ getLabelsFromSpecClaimed (fun p l => p = l) ["Time", "a", "b"]
          (.list ["b", "a", "a"]) ∧
    ¬ (getLabelsFromSpec (fun p l => p = l) ["Time", "a", "b"]
        (.list ["b", "a", "a"])).Nodup := by
  refine ⟨by decide, by decide, by decide, by decide⟩

/-- Opening an existing file written by this module, with an arbitrary
requested label list `L`: the header parses back, the stored mode wins,
and the common tail `openFinish` runs with the file's labels as
`existing_labels`. -/
lemma openCsv_existing (ld : Bool) {ls : List String} (body : List Char)
    (L : List String) (hls : ls ≠ []) (hg : ∀ l ∈ ls, GoodLabel l) :
    openCsv L (some (headerChars ld ls ++ body)) ld
      = openFinish ls none
          (some (headerChars ld ls ++ body, (headerChars ld ls).length)) ld L := by
  have hp1 : readlineEnd (headerChars ld ls ++ body) 0
      = (fileInfoLine ld).length + 1 := by
    have h := @readlineEnd_drop_append (headerChars ld ls ++ body)
      0 (fileInfoLine ld)
      (labelLinePadded ld ls ++ '\n' :: body)
      (by rw [List.drop_zero]; simp [headerChars])
      (fileInfoLine_no_nl ld)
    simpa using h
  have hs1 : sliceBytes (headerChars ld ls ++ body) 0
      ((fileInfoLine ld).length + 1) = fileInfoLine ld ++ ['\n'] := by
    unfold sliceBytes
    rw [List.drop_zero, headerChars_decomp,
      show (fileInfoLine ld).length + 1 - 0
        = (fileInfoLine ld ++ ['\n']).length by simp]
    exact List.take_left _ _
  have hfi : pySplit ',' (pyStrip (fileInfoLine ld ++ ['\n']))
      = ["logdbcsv".toList, "version=1.0".toList,
         (if ld then "delta=1" else "delta=0").toList] := by
    rw [pyStrip_clean (fileInfoLine_no_ws ld) (by decide)]
    cases ld <;> decide
  have hp2 : readlineEnd (headerChars ld ls ++ body)
      ((fileInfoLine ld).length + 1)
      = (fileInfoLine ld).length + 1 + (labelLinePadded ld ls).length + 1 :=
    @readlineEnd_drop_append (headerChars ld ls ++ body)
      ((fileInfoLine ld).length + 1)
      (labelLinePadded ld ls) body
      (by
        rw [headerChars_decomp,
          show (fileInfoLine ld).length + 1
            = (fileInfoLine ld ++ ['\n']).length by simp,
          List.drop_left])
      (labelLinePadded_not_nl hg)
  have hs2 : sliceBytes (headerChars ld ls ++ body)
      ((fileInfoLine ld).length + 1)
      ((fileInfoLine ld).length + 1 + (labelLinePadded ld ls).length + 1)
      = labelLinePadded ld ls ++ ['\n'] := by
    unfold sliceBytes
    rw [headerChars_decomp,
      show (fileInfoLine ld).length + 1
        = (fileInfoLine ld ++ ['\n']).length by simp,
      List.drop_left,
      show (fileInfoLine ld ++ ['\n']).length + (labelLinePadded ld ls).length + 1
          - (fileInfoLine ld ++ ['\n']).length
        = (labelLinePadded ld ls ++ ['\n']).length by simp; omega,
      show labelLinePadded ld ls ++ '\n' :: body
        = (labelLinePadded ld ls ++ ['\n']) ++ body by simp]
    exact List.take_left _ _
  have hparse : (pySplit ',' (labelLinePadded ld ls ++ ['\n'])).map
      (fun l => String.mk (pyStrip l)) = ls := by
    rw [show labelLinePadded ld ls ++ ['\n']
        = labelLineChars ls
          ++ (pySpaces ((CSV_HEADER_ROW_LENGTH : Int)
              - (labelLineChars ls).length - (fileInfoLine ld).length) ++ ['\n'])
        by simp [labelLinePadded]]
    refine parse_labels hls hg ?_ ?_
    · intro c hc
      rcases List.mem_append.mp hc with hc | hc
      · rw [List.eq_of_mem_replicate hc]
        decide
      · simp at hc
        rw [hc]
        decide
    · intro hc
      rcases List.mem_append.mp hc with hc | hc
      · exact absurd (List.eq_of_mem_replicate hc) (by decide)
      · simp at hc
  have hlen : (fileInfoLine ld).length + 1
      + (labelLinePadded ld ls).length + 1 = (headerChars ld ls).length := by
    simp [headerChars]
    omega
  simp only [openCsv]
  rw [hp1, hp2, hs1, hfi, hs2, hparse]
  rw [if_pos (show _ ∧ _ ∧ _ by cases ld <;> exact (by decide))]
  rw [hlen]
  cases ld <;> simp


/-! ## C3: header overflow on reopen with added labels -/

/-- Reopening an existing well-formed file with new labels overflowing the
reserved header width: no exception, the padding is empty and the
oversized header is written over the start of the old file. -/
lemma openCsv_overflow (ld : Bool) (ls L : List String) (body : List Char)
    (hls : ls ≠ []) (hg : ∀ l ∈ ls, GoodLabel l)
    (hne : L.filter (fun l => l ∉ ls) ≠ [])
    (hover : CSV_HEADER_ROW_LENGTH
      < (labelLineChars (ls ++ L.filter (fun l => l ∉ ls))).length
        + (fileInfoLine ld).length) :
    openCsv L (some (headerChars ld ls ++ body)) ld
      = ⟨headerChars ld (ls ++ L.filter (fun l => l ∉ ls))
          ++ (headerChars ld ls ++ body).drop
              (headerChars ld (ls ++ L.filter (fun l => l ∉ ls))).length,
         none, ls ++ L.filter (fun l => l ∉ ls), ld,
         some (headerChars ld ls).length⟩
    ∧ (headerChars ld (ls ++ L.filter (fun l => l ∉ ls))).length
        = (fileInfoLine ld).length
          + (labelLineChars (ls ++ L.filter (fun l => l ∉ ls))).length + 2
    ∧ CSV_HEADER_ROW_LENGTH + 2
        < (headerChars ld (ls ++ L.filter (fun l => l ∉ ls))).length := by
  have hpad : labelLinePadded ld (ls ++ L.filter (fun l => l ∉ ls))
      = labelLineChars (ls ++ L.filter (fun l => l ∉ ls)) := by
    unfold labelLinePadded pySpaces
    rw [Int.toNat_eq_zero.mpr (by push_cast; omega)]
    simp
  have hhl : (headerChars ld (ls ++ L.filter (fun l => l ∉ ls))).length
      = (fileInfoLine ld).length
        + (labelLineChars (ls ++ L.filter (fun l => l ∉ ls))).length + 2 := by
    simp only [headerChars, List.length_append, List.length_cons,
      List.length_nil, hpad]
    omega
  refine ⟨?_, hhl, by omega⟩
  rw [openCsv_existing ld body L hls hg]
  simp only [openFinish]
  rw [if_neg hne]
  rfl

/-- A 2100-character label, long enough to overflow the 2048-byte header
reserve on its own. -/
def bigLabel : String := String.mk (List.replicate 2100 'x')

lemma bigLabel_ne_Time : bigLabel ≠ "Time" := by
  intro h
  have h2 := congrArg (fun s => s.toList.length) h
  simp only [bigLabel] at h2
  rw [show (String.mk (List.replicate 2100 'x')).toList
      = List.replicate 2100 'x' from rfl] at h2
  rw [List.length_replicate] at h2
  exact absurd h2 (by decide)

lemma bigFilter : (["Time", bigLabel].filter
    (fun l => l ∉ (["Time"] : List String))) = [bigLabel] := by
  have h1 : (decide (("Time" : String) ∉ (["Time"] : List String))) = false := by
    decide
  have h2 : (decide (bigLabel ∉ (["Time"] : List String))) = true := by
    simp [bigLabel_ne_Time]
  simp only [List.filter, h1, h2]

lemma timeLabelLine : labelLineChars ["Time"] = "Time".toList := by
  simp [labelLineChars, List.intercalate]

lemma bigLabel_toList : bigLabel.toList = List.replicate 2100 'x' := rfl

lemma bigLabelLine : labelLineChars ["Time", bigLabel]
    = "Time".toList ++ ',' :: List.replicate 2100 'x' := by
  show (List.intersperse [','] ["Time".toList, bigLabel.toList]).join = _
  rw [List.intersperse_cons_cons, List.intersperse_singleton]
  rw [show List.join ["Time".toList, [','], bigLabel.toList]
      = "Time".toList ++ ([','] ++ (bigLabel.toList ++ [])) from rfl]
  rw [List.append_nil, List.singleton_append, bigLabel_toList]

lemma bigLabelLine_length :
    (labelLineChars ["Time", bigLabel]).length = 2105 := by
  rw [bigLabelLine, List.length_append, List.length_cons, List.length_replicate]
  decide

lemma fileInfo_length : (fileInfoLine false).length = 28 := by decide

lemma timeHeader_length : (headerChars false ["Time"]).length = 2050 := by
  simp only [headerChars, labelLinePadded, pySpaces, timeLabelLine,
    fileInfoLine, CSV_HEADER_ROW_LENGTH, List.length_append,
    List.length_cons, List.length_nil, List.length_replicate]
  decide

/-- C3 (amended): when reopening an existing well-formed file adds new
labels so that the combined label line together with the info line exceeds
the reserved header width (`CSV_HEADER_ROW_LENGTH` = 2048 bytes),
`__init__` does NOT raise an exception: the padding count is non-positive,
so the label line is written unpadded, and the oversized header (strictly
longer than the reserved 2050 bytes) is written over the start of the old
file, overwriting the beginning of the data region. -/
theorem claim_C3 (ld : Bool) (ls L : List String) (body : List Char)
    (hls : ls ≠ []) (hg : ∀ l ∈ ls, GoodLabel l)
    (hne : L.filter (fun l => l ∉ ls) ≠ [])
    (hover : CSV_HEADER_ROW_LENGTH
      < (labelLineChars (ls ++ L.filter (fun l => l ∉ ls))).length
        + (fileInfoLine ld).length) :
    openCsv L (some (headerChars ld ls ++ body)) ld
      = ⟨headerChars ld (ls ++ L.filter (fun l => l ∉ ls))
          ++ (headerChars ld ls ++ body).drop
              (headerChars ld (ls ++ L.filter (fun l => l ∉ ls))).length,
         none, ls ++ L.filter (fun l => l ∉ ls), ld,
         some (headerChars ld ls).length⟩
    ∧ (headerChars ld (ls ++ L.filter (fun l => l ∉ ls))).length
        = (fileInfoLine ld).length
          + (labelLineChars (ls ++ L.filter (fun l => l ∉ ls))).length + 2
    ∧ CSV_HEADER_ROW_LENGTH + 2
        < (headerChars ld (ls ++ L.filter (fun l => l ∉ ls))).length :=
  openCsv_overflow ld ls L body hls hg hne hover

/-- C3 counterexample: reopening a one-label file whose body holds the
data line `9,8`, adding a 2100-character label.  The open completes with
no exception; the old file was 2054 bytes, the new header is 2135 bytes,
so the resulting file is exactly the new header and the data line is
destroyed (no byte `9` survives anywhere in the file). -/
theorem claim_C3_counterexample :
    openCsv ["Time", bigLabel]
        (some (headerChars false ["Time"] ++ "9,8\n".toList)) false
      = ⟨headerChars false ["Time", bigLabel], none, ["Time", bigLabel],
         false, some (headerChars false ["Time"]).length⟩
    ∧ (headerChars false ["Time"]).length = 2050
    ∧ (headerChars false ["Time"] ++ "9,8\n".toList).length = 2054
    ∧ (headerChars false ["Time", bigLabel]).length = 2135
    ∧ '9' ∈ headerChars false ["Time"] ++ "9,8\n".toList
    ∧ '9' ∉ headerChars false ["Time", bigLabel] := by
  have h := openCsv_overflow false ["Time"] ["Time", bigLabel] "9,8\n".toList
    (by decide) (by decide)
    (by rw [bigFilter]; decide)
    (by
      rw [bigFilter, List.singleton_append, bigLabelLine_length,
        fileInfo_length]
      decide)
  rw [bigFilter] at h
  simp only [List.cons_append, List.nil_append] at h
  obtain ⟨h1, h2, _⟩ := h
  have hlenOld : (headerChars false ["Time"] ++ "9,8\n".toList).length = 2054 := by
    rw [List.length_append, timeHeader_length]
    decide
  have hlenNew : (headerChars false ["Time", bigLabel]).length = 2135 := by
    rw [h2, bigLabelLine_length, fileInfo_length]
  have hpadBig : labelLinePadded false ["Time", bigLabel]
      = labelLineChars ["Time", bigLabel] := by
    unfold labelLinePadded pySpaces
    rw [Int.toNat_eq_zero.mpr (by rw [bigLabelLine_length, fileInfo_length]; decide)]
    simp
  refine ⟨?_, timeHeader_length, hlenOld, hlenNew,
    List.mem_append.mpr (Or.inr (by decide)), ?_⟩
  · rw [h1]
    rw [List.drop_eq_nil_of_le (by omega), List.append_nil]
  · intro hmem
    simp only [headerChars, hpadBig, bigLabelLine] at hmem
    rcases List.mem_append.mp hmem with h | h
    · exact absurd h (by decide)
    · rcases List.mem_cons.mp h with h | h
      · exact absurd h (by decide)
      · rcases List.mem_append.mp h with h | h
        · rcases List.mem_append.mp h with h | h
          · exact absurd h (by decide)
          · rcases List.mem_cons.mp h with h | h
            · exact absurd h (by decide)
            · exact absurd (List.eq_of_mem_replicate h) (by decide)
        · exact absurd h (by decide)

/-- C3 witness: the hypotheses of `claim_C3` hold at the counterexample's
concrete input, and the conclusion applies there. -/
theorem claim_C3_witness :
    (["Time"] : List String) ≠ []
    ∧ (∀ l ∈ (["Time"] : List String), GoodLabel l)
    ∧ ["Time", bigLabel].filter (fun l => l ∉ (["Time"] : List String)) ≠ []
    ∧ CSV_HEADER_ROW_LENGTH
        < (labelLineChars (["Time"] ++ ["Time", bigLabel].filter
            (fun l => l ∉ (["Time"] : List String)))).length
          + (fileInfoLine false).length
    ∧ (openCsv ["Time", bigLabel]
        (some (headerChars false ["Time"] ++ "9,8\n".toList)) false).backup
        = none := by
  have hne : ["Time", bigLabel].filter
      (fun l => l ∉ (["Time"] : List String)) ≠ [] := by
    rw [bigFilter]
    decide
  have hover : CSV_HEADER_ROW_LENGTH
      < (labelLineChars (["Time"] ++ ["Time", bigLabel].filter
          (fun l => l ∉ (["Time"] : List String)))).length
        + (fileInfoLine false).length := by
    rw [bigFilter, List.singleton_append, bigLabelLine_length,
      fileInfo_length]
    decide
  refine ⟨by decide, by decide, hne, hover, ?_⟩
  rw [(claim_C3 false ["Time"] ["Time", bigLabel] "9,8\n".toList
    (by decide) (by decide) hne hover).1]

/-! ## C7: corrupt-header recovery -/

/-- The `existing_labels` parsed from the second line of a file
(`__init__` lines 96-99) — junk when the file's header is corrupt. -/
def corruptLabels (content : List Char) : List String :=
  (pySplit ',' (sliceBytes content (readlineEnd content 0)
      (readlineEnd content (readlineEnd content 0)))).map
    (fun l => String.mk (pyStrip l))

/-- C7 (amended): when the first line of an existing backing file fails
the info-line check (three comma-separated parts, first part `logdbcsv`,
third part `delta=0` or `delta=1` — the version part is NOT validated),
`__init__` completes without raising: the whole old file is kept
byte-for-byte as the renamed-aside backup and `header_length` is reset to
`none`.  The recreated file gets a fresh header ONLY when some requested
label is missing from the labels parsed from the SECOND line of the
corrupt file; that header's label line then lists the parsed junk labels
followed by the missing requested labels — not the requested labels
alone.  When every requested label already appears among the parsed
labels (`new_labels` empty, e.g. only the info line was corrupted), the
recreated file is left EMPTY: no info line and no label line are
written. -/
theorem claim_C7 (labels : List String) (content : List Char) (ld : Bool)
    (hbad : ¬ ((pySplit ',' (pyStrip (sliceBytes content 0
          (readlineEnd content 0)))).length = 3
      ∧ (pySplit ',' (pyStrip (sliceBytes content 0
          (readlineEnd content 0)))).headI = "logdbcsv".toList
      ∧ ((pySplit ',' (pyStrip (sliceBytes content 0
            (readlineEnd content 0)))).getD 2 [] = "delta=0".toList
         ∨ (pySplit ',' (pyStrip (sliceBytes content 0
            (readlineEnd content 0)))).getD 2 [] = "delta=1".toList))) :
    openCsv labels (some content) ld
      = ⟨if labels.filter (fun l => l ∉ corruptLabels content) = [] then []
         else headerChars ld (corruptLabels content
           ++ labels.filter (fun l => l ∉ corruptLabels content)),
         some content,
         corruptLabels content
           ++ labels.filter (fun l => l ∉ corruptLabels content),
         ld, none⟩ := by
  simp only [openCsv]
  rw [if_neg hbad]
  simp only [openFinish, corruptLabels]
  split
  · rfl
  · rw [List.drop_nil, List.append_nil]
    rfl

lemma timeSHeader_length : (headerChars false ["Time", "s"]).length = 2050 := by
  simp only [headerChars, labelLinePadded, pySpaces, labelLineChars,
    fileInfoLine, CSV_HEADER_ROW_LENGTH, List.length_append,
    List.length_cons, List.length_nil, List.length_replicate]
  decide

/-- C7 counterexample, refuting the claimed recovery on two inputs.
First, a file whose first line is `garbage` and whose second line is
`A,B`: the open completes and keeps every byte of the old file as the
backup, but the resulting label list is the junk labels `A`, `B` parsed
from the corrupt file's second line followed by the requested labels —
not the requested labels alone — and the junk label `A` is written into
the fresh header.  Second, a file whose first line is `garbage` but
whose second line already lists exactly the requested labels `Time,s`
(only the info line corrupted): `new_labels` is empty, so NO header is
written at all — the recreated file is empty, with no fresh info line
and no label line. -/
theorem claim_C7_counterexample :
    ((openCsv ["Time", "s"] (some ("garbage\nA,B\n".toList)) false).backup
        = some ("garbage\nA,B\n".toList)
    ∧ (openCsv ["Time", "s"] (some ("garbage\nA,B\n".toList)) false).labels
        = ["A", "B", "Time", "s"]
    ∧ (openCsv ["Time", "s"] (some ("garbage\nA,B\n".toList)) false).labels
        ≠ ["Time", "s"]
    ∧ (openCsv ["Time", "s"] (some ("garbage\nA,B\n".toList)) false).header_length
        = none
    ∧ 'A' ∈ (openCsv ["Time", "s"] (some ("garbage\nA,B\n".toList)) false).content)
    ∧ (openCsv ["Time", "s"] (some ("garbage\nTime,s\n".toList)) false
        = ⟨[], some ("garbage\nTime,s\n".toList), ["Time", "s"], false, none⟩
    ∧ ([] : List Char) ≠ headerChars false ["Time", "s"]) := by
  refine ⟨⟨by decide, by decide, by decide, by decide, ?_⟩, by decide, ?_⟩
  · decide
  · intro h
    have hlen := congrArg List.length h
    rw [timeSHeader_length] at hlen
    exact absurd hlen (by decide)

/-- C7 witness: the corrupt-header hypothesis of `claim_C7` holds at a
concrete input, and the conclusion applies there. -/
theorem claim_C7_witness :
    (¬ ((pySplit ',' (pyStrip (sliceBytes "garbage\nC\n".toList 0
          (readlineEnd "garbage\nC\n".toList 0)))).length = 3
      ∧ (pySplit ',' (pyStrip (sliceBytes "garbage\nC\n".toList 0
          (readlineEnd "garbage\nC\n".toList 0)))).headI = "logdbcsv".toList
      ∧ ((pySplit ',' (pyStrip (sliceBytes "garbage\nC\n".toList 0
            (readlineEnd "garbage\nC\n".toList 0)))).getD 2 [] = "delta=0".toList
         ∨ (pySplit ',' (pyStrip (sliceBytes "garbage\nC\n".toList 0
            (readlineEnd "garbage\nC\n".toList 0)))).getD 2 [] = "delta=1".toList)))
    ∧ (openCsv ["T"] (some ("garbage\nC\n".toList)) false).backup
        = some ("garbage\nC\n".toList) := by
  refine ⟨by decide, ?_⟩
  rw [claim_C7 ["T"] "garbage\nC\n".toList false (by decide)]

/-! ## C1: absolute-mode round-trip through the backing file -/

/-- A float value whose formatted representation survives the CSV
round-trip: either NaN (written as the empty field, restored as NaN by
`_str2float`), or a value whose formatting is non-empty, is not the NaN
marker `n`, parses back to the same value, and contains no whitespace, no
comma and no newline.  Every real float formatted by `str(value)` in
Python has these properties. -/
def GoodVal (fmt : PyF → List Char) (pf : List Char → Option PyF)
    (v : PyF) : Prop :=
  v = PyF.nan ∨
    (fmt v ≠ [] ∧ fmt v ≠ ['n'] ∧ pf (fmt v) = some v
      ∧ ∀ c ∈ fmt v, pyWs c = false ∧ c ≠ ',' ∧ c ≠ '\n')

instance (fmt : PyF → List Char) (pf : List Char → Option PyF) (v : PyF) :
    Decidable (GoodVal fmt pf v) := by
  unfold GoodVal
  infer_instance

/-- The fields of an absolute-mode CSV line (`_LogDbCsv.insert`, else
branch of the field loop): empty for NaN, the formatted value otherwise. -/
def absFields (fmt : PyF → List Char) (ls : List String) (ds : DSet) :
    List (List Char) :=
  ls.map (fun l =>
    if resolveDS ds l = PyF.nan then [] else fmt (resolveDS ds l))

lemma str2float_abs_empty (pf : List Char → Option PyF) :
    str2float false pf [] = PyF.nan := rfl

lemma str2float_parsed (pf : List Char → Option PyF) {s : List Char} {v : PyF}
    (h1 : s ≠ []) (h2 : s ≠ ['n']) (h3 : pf s = some v) :
    str2float false pf s = v := by
  unfold str2float
  rw [if_neg h1, if_neg h2, h3]

lemma intercalate_cons_cons (sep a b : List Char) (t : List (List Char)) :
    List.intercalate sep (a :: b :: t)
      = a ++ sep ++ List.intercalate sep (b :: t) := by
  simp [List.intercalate, List.intersperse]

lemma mem_intercalate_comma {c : Char} :
    ∀ {fs : List (List Char)}, c ∈ List.intercalate [','] fs →
      c = ',' ∨ ∃ f ∈ fs, c ∈ f
  | [] => by
    intro h
    simp [List.intercalate] at h
  | [f] => by
    intro h
    simp only [List.intercalate, List.intersperse] at h
    simp at h
    exact Or.inr ⟨f, by simp, h⟩
  | f :: f2 :: rest => by
    rw [intercalate_cons_cons]
    intro h
    rcases List.mem_append.mp h with h | h
    · rcases List.mem_append.mp h with h | h
      · exact Or.inr ⟨f, by simp, h⟩
      · simp at h
        exact Or.inl h
    · rcases mem_intercalate_comma h with h | ⟨f', hf', hc⟩
      · exact Or.inl h
      · exact Or.inr ⟨f', by simp [hf'], hc⟩

lemma pySplit_intercalate :
    ∀ {fs : List (List Char)}, fs ≠ [] → (∀ f ∈ fs, ',' ∉ f) →
      pySplit ',' (List.intercalate [','] fs) = fs
  | [], h, _ => absurd rfl h
  | [f], _, hc => by
    have : List.intercalate [','] [f] = f := by
      simp [List.intercalate]
    rw [this, pySplit_no_sep (hc f (by simp))]
  | f :: f2 :: rest, _, hc => by
    rw [intercalate_cons_cons, List.append_assoc, List.singleton_append,
      pySplit_append_sep_cons _ (hc f (by simp))]
    rw [pySplit_intercalate (by simp) (fun x hx => hc x (by simp [hx]))]

lemma pySplit_join_lines :
    ∀ {lines : List (List Char)}, (∀ L ∈ lines, '\n' ∉ L) →
      pySplit '\n' ((lines.map (fun L => L ++ ['\n'])).join) = lines ++ [[]]
  | [], _ => rfl
  | L :: rest, h => by
    rw [List.map_cons]
    show pySplit '\n'
        ((L ++ ['\n']) ++ (List.map (fun L => L ++ ['\n']) rest).join) = _
    rw [List.append_assoc, List.singleton_append,
      pySplit_append_sep_cons _ (h L (by simp))]
    rw [pySplit_join_lines (fun x hx => h x (by simp [hx]))]
    rfl

lemma addRecord_absFields (fmt : PyF → List Char)
    (pf : List Char → Option PyF) (ds : DSet) :
    ∀ (ls : List String) (g : String → List PyF),
      (∀ l ∈ ls, GoodVal fmt pf (resolveDS ds l)) →
      addRecord false pf (ls.map (fun l => some (g l))) (absFields fmt ls ds)
        = ls.map (fun l => some (g l ++ [resolveDS ds l]))
  | [], g, _ => rfl
  | l :: ls, g, hgood => by
    have hfield : str2float false pf
        (if resolveDS ds l = PyF.nan then [] else fmt (resolveDS ds l))
        = resolveDS ds l := by
      by_cases hv : resolveDS ds l = PyF.nan
      · rw [if_pos hv, str2float_abs_empty, hv]
      · rw [if_neg hv]
        rcases hgood l (by simp) with h | ⟨h1, h2, h3, _⟩
        · exact absurd h hv
        · exact str2float_parsed pf h1 h2 h3
    show (Option.map (fun c => c ++ [str2float false pf
          (if resolveDS ds l = PyF.nan then [] else fmt (resolveDS ds l))])
          (some (g l)))
        :: addRecord false pf (ls.map (fun l => some (g l))) (absFields fmt ls ds)
      = some (g l ++ [resolveDS ds l])
        :: ls.map (fun l => some (g l ++ [resolveDS ds l]))
    rw [hfield]
    rw [addRecord_absFields fmt pf ds ls g (fun x hx => hgood x (by simp [hx]))]
    rfl

lemma absFields_length (fmt : PyF → List Char) (ls : List String) (ds : DSet) :
    (absFields fmt ls ds).length = ls.length := by
  simp [absFields]

lemma absFields_no_char (fmt : PyF → List Char) (pf : List Char → Option PyF)
    {ls : List String} {ds : DSet}
    (hgood : ∀ l ∈ ls, GoodVal fmt pf (resolveDS ds l))
    {f : List Char} (hf : f ∈ absFields fmt ls ds) {c : Char} (hc : c ∈ f) :
    pyWs c = false ∧ c ≠ ',' ∧ c ≠ '\n' := by
  obtain ⟨l, hl, rfl⟩ := List.mem_map.mp hf
  by_cases hv : resolveDS ds l = PyF.nan
  · rw [if_pos hv] at hc
    simp at hc
  · rw [if_neg hv] at hc
    rcases hgood l hl with h | ⟨_, _, _, h4⟩
    · exact absurd h hv
    · exact h4 c hc

lemma absLine_clean (fmt : PyF → List Char) (pf : List Char → Option PyF)
    {ls : List String} {ds : DSet}
    (hgood : ∀ l ∈ ls, GoodVal fmt pf (resolveDS ds l)) :
    ∀ c ∈ List.intercalate [','] (absFields fmt ls ds),
      pyWs c = false ∧ c ≠ '\n' := by
  intro c hc
  rcases mem_intercalate_comma hc with h | ⟨f, hf, hcf⟩
  · rw [h]
    exact ⟨by decide, by decide⟩
  · have := absFields_no_char fmt pf hgood hf hcf
    exact ⟨this.1, this.2.2⟩

lemma absLine_parse (fmt : PyF → List Char) (pf : List Char → Option PyF)
    {ls : List String} {ds : DSet} (hne : ls ≠ [])
    (hgood : ∀ l ∈ ls, GoodVal fmt pf (resolveDS ds l)) :
    pySplit ',' (pyStrip (List.intercalate [','] (absFields fmt ls ds)))
      = absFields fmt ls ds := by
  have hstrip : pyStrip (List.intercalate [','] (absFields fmt ls ds))
      = List.intercalate [','] (absFields fmt ls ds) := by
    have := pyStrip_clean (t := [])
      (fun c hc => (absLine_clean fmt pf hgood c hc).1) (by simp)
    simpa using this
  rw [hstrip]
  exact pySplit_intercalate (by simp [absFields, hne])
    (fun f hf hc => (absFields_no_char fmt pf hgood hf hc).2.1 rfl)

/-- Processing a list of absolute-mode encoded lines: each line appends its
record's value to every column. -/
lemma processLines_records (fmt : PyF → List Char)
    (pf : List Char → Option PyF) :
    ∀ (rrecs : List DSet) (ls : List String) (g : String → List PyF),
      2 ≤ ls.length →
      (∀ ds ∈ rrecs, ∀ l ∈ ls, GoodVal fmt pf (resolveDS ds l)) →
      processLines false pf
          (rrecs.map (fun ds => List.intercalate [','] (absFields fmt ls ds)))
          (ls.map (fun l => some (g l))) none
        = .ok (ls.map (fun l =>
            some (g l ++ rrecs.map (fun ds => resolveDS ds l))), none, false)
  | [], ls, g, _, _ => by
    simp [processLines]
  | ds :: rest, ls, g, h2, hgood => by
    have hne : ls ≠ [] := by
      intro h
      rw [h] at h2
      simp at h2
    have hparse := absLine_parse fmt pf hne (hgood ds (by simp))
    rw [List.map_cons]
    simp only [processLines, hparse]
    rw [if_neg (by
      rw [absFields_length]
      omega)]
    rw [if_neg (by
      rw [absFields_length, List.length_map]
      omega)]
    rw [if_neg (by simp [capDec, capLe0])]
    rw [addRecord_absFields fmt pf ds ls g (hgood ds (by simp))]
    rw [show capDec none = none from rfl]
    rw [processLines_records fmt pf rest ls
      (fun l => g l ++ [resolveDS ds l]) h2
      (fun d hd => hgood d (by simp [hd]))]
    congr 1
    refine Prod.ext ?_ rfl
    simp only
    refine List.map_congr_left ?_
    intro l _
    rw [List.append_assoc, List.singleton_append, List.map_cons]

/-- Restoring the file produced by a sequence of absolute-mode inserts over
a fresh header recovers every column. -/
lemma restoreRef_roundtrip (fmt : PyF → List Char)
    (pf : List Char → Option PyF) (ls : List String) (records : List DSet)
    (last : String → Option PyF) (h2 : 2 ≤ ls.length)
    (hgood : ∀ ds ∈ records, ∀ l ∈ ls, GoodVal fmt pf (resolveDS ds l)) :
    restoreRef false pf
        (headerChars false ls
          ++ (records.map (fun ds =>
              csvLineOf (csvInsert fmt false ds ls last).1)).join)
        (headerChars false ls).length
        (ls.map (fun _ => some ([] : List PyF))) none
      = .ok (ls.map (fun l =>
          some (records.map (fun ds => resolveDS ds l)))) := by
  have hlines : records.map (fun ds =>
        csvLineOf (csvInsert fmt false ds ls last).1)
      = (records.map (fun ds =>
          List.intercalate [','] (absFields fmt ls ds))).map
          (fun L => L ++ ['\n']) := by
    rw [List.map_map]
    refine List.map_congr_left ?_
    intro ds _
    rw [csvInsert_abs]
    rfl
  have hnl : ∀ L ∈ records.map (fun ds =>
      List.intercalate [','] (absFields fmt ls ds)), '\n' ∉ L := by
    intro L hL hmem
    obtain ⟨ds, hds, rfl⟩ := List.mem_map.mp hL
    exact (absLine_clean fmt pf (hgood ds hds) '\n' hmem).2 rfl
  have hproc := processLines_records fmt pf records.reverse ls (fun _ => [])
    h2 (fun d hd => hgood d (List.mem_reverse.mp hd))
  simp only [List.nil_append] at hproc
  simp only [restoreRef]
  rw [if_neg (by decide : ¬ capLe0 none = true)]
  rw [List.drop_left, hlines, pySplit_join_lines hnl]
  have hrev : ∀ (A : List (List Char)), (A ++ [[]]).reverse = [] :: A.reverse := by
    intro A
    simp
  have hmaprev : ∀ (f : DSet → List Char) (R : List DSet),
      (R.map f).reverse = R.reverse.map f := by
    intro f R
    rw [List.map_reverse]
  rw [hrev, processLines_empty_line, hmaprev, hproc]
  show Except.ok (finalizeDM false (ls.map (fun l =>
      some (records.reverse.map (fun ds => resolveDS ds l))))) = _
  have hfin : finalizeDM false (ls.map (fun l =>
      some (records.reverse.map (fun ds => resolveDS ds l))))
      = ls.map (fun l => some (records.map (fun ds => resolveDS ds l))) := by
    unfold finalizeDM
    rw [List.map_map]
    refine List.map_congr_left ?_
    intro l _
    simp [List.map_reverse]
  rw [hfin]

/-- Folding a sequence of cap-free inserts appends, per declared label, the
per-record values in order. -/
lemma memFold_roundtrip (ls : List String) (hnd : ls.Nodup) :
    ∀ (records : List DSet) (data : String → List PyF) (l : String),
      l ∈ ls →
      (records.foldl (fun d ds => insertMem ls none none d ds 0) data) l
        = data l ++ records.map (fun ds => resolveDS ds l)
  | [], data, l, _ => by simp
  | ds :: rest, data, l, hl => by
    rw [List.foldl_cons,
      memFold_roundtrip ls hnd rest _ l hl,
      insertMem_no_caps, appendMem_eq ds hnd data l, if_pos hl]
    simp

/-- **C1 (amended).**  For at least two declared distinct good labels and
records whose values format round-trippably, reopening the file produced
by a sequence of absolute-mode inserts is a no-op on the file, and
`restore_data` (with any initial chunk size, no retention cap) recovers,
for every label, exactly the sequence of originally inserted values —
NaN positions included — which is exactly what the in-memory columns held
after those inserts.  (The amendment `2 ≤ ls.length` is forced: a line of
a single-label store has a single field and is skipped on restore, see the
counterexample.) -/
theorem claim_C1 (fmt : PyF → List Char) (pf : List Char → Option PyF)
    (ls : List String) (records : List DSet) (last : String → Option PyF)
    (init : ℕ+) (h2 : 2 ≤ ls.length) (hnd : ls.Nodup)
    (hg : ∀ l ∈ ls, GoodLabel l)
    (hgood : ∀ ds ∈ records, ∀ l ∈ ls, GoodVal fmt pf (resolveDS ds l)) :
    openCsv ls (some (headerChars false ls
        ++ (records.map (fun ds =>
            csvLineOf (csvInsert fmt false ds ls last).1)).join)) false
      = ⟨headerChars false ls
          ++ (records.map (fun ds =>
              csvLineOf (csvInsert fmt false ds ls last).1)).join,
         none, ls, false, some (headerChars false ls).length⟩
    ∧ restoreData false pf
        (headerChars false ls
          ++ (records.map (fun ds =>
              csvLineOf (csvInsert fmt false ds ls last).1)).join)
        (headerChars false ls).length init
        (ls.map (fun _ => some ([] : List PyF))) none
      = .ok (ls.map (fun l =>
          some (records.map (fun ds => resolveDS ds l))))
    ∧ ∀ l ∈ ls,
        (records.foldl (fun d ds => insertMem ls none none d ds 0)
          (fun _ => [])) l
          = records.map (fun ds => resolveDS ds l) := by
  have hls : ls ≠ [] := by
    intro h
    rw [h] at h2
    simp at h2
  refine ⟨openCsv_reopen false _ hls hg, ?_, ?_⟩
  · rw [restoreData_eq_ref false pf (wfHeader_headerChars false _ hg) init]
    exact restoreRef_roundtrip fmt pf ls records last h2 hgood
  · intro l hl
    rw [memFold_roundtrip ls hnd records _ l hl]
    rfl

/-- C1 counterexample: a single-label store.  The one inserted record
`{Time: 5}` encodes to the line `5` (one field); on restore the line is
skipped (`len(record) < 2`), so the restored Time column is empty instead
of `[5]`: the round-trip fails for single-label stores. -/
theorem claim_C1_counterexample :
    (csvInsert (fun v => if v = PyF.num 5 then ['5'] else ['x']) false
        (dsLookup [("Time", PyF.num 5)]) ["Time"] (fun _ => none)).1
      = [['5']]
    ∧ csvLineOf [['5']] = "5\n".toList
    ∧ resolveDS (dsLookup [("Time", PyF.num 5)]) "Time" = PyF.num 5
    ∧ WfHeader (headerChars false ["Time"] ++ "5\n".toList)
        (headerChars false ["Time"]).length
    ∧ restoreData false
        (fun s => if s = ['5'] then some (PyF.num 5) else none)
        (headerChars false ["Time"] ++ "5\n".toList)
        (headerChars false ["Time"]).length 1 [some []] none
      = .ok [some []]
    ∧ ([some ([] : List PyF)] : DM) ≠ [some [PyF.num 5]] := by
  refine ⟨by decide, by decide, by decide,
    wfHeader_headerChars false _ (by decide), ?_, by decide⟩
  rw [restoreData_eq_ref false _ (wfHeader_headerChars false _ (by decide)) 1]
  simp only [restoreRef]
  rw [if_neg (by decide : ¬ capLe0 none = true)]
  rw [List.drop_left]
  rfl

/-- Concrete two-label instance for the C1 witness. -/
def C1fmt : PyF → List Char :=
  fun v => if v = PyF.num 1 then ['1'] else if v = PyF.num 2 then ['2'] else ['x']

/-- Concrete parser inverting `C1fmt` on the used values. -/
def C1pf : List Char → Option PyF :=
  fun s => if s = ['1'] then some (PyF.num 1)
    else if s = ['2'] then some (PyF.num 2) else none

/-- Concrete record for the C1 witness. -/
def C1ds : DSet := dsLookup [("Time", PyF.num 1), ("s0", PyF.num 2)]

/-- C1 witness: the hypotheses of `claim_C1` hold at a concrete two-label
store with one record, and the conclusion applies there. -/
theorem claim_C1_witness :
    2 ≤ (["Time", "s0"] : List String).length
    ∧ (["Time", "s0"] : List String).Nodup
    ∧ (∀ l ∈ (["Time", "s0"] : List String), GoodLabel l)
    ∧ (∀ ds ∈ [C1ds], ∀ l ∈ (["Time", "s0"] : List String),
        GoodVal C1fmt C1pf (resolveDS ds l))
    ∧ (openCsv ["Time", "s0"] (some (headerChars false ["Time", "s0"]
        ++ ([C1ds].map (fun ds =>
            csvLineOf (csvInsert C1fmt false ds ["Time", "s0"]
              (fun _ => none)).1)).join)) false
      = ⟨headerChars false ["Time", "s0"]
          ++ ([C1ds].map (fun ds =>
              csvLineOf (csvInsert C1fmt false ds ["Time", "s0"]
                (fun _ => none)).1)).join,
         none, ["Time", "s0"], false,
         some (headerChars false ["Time", "s0"]).length⟩
    ∧ restoreData false C1pf
        (headerChars false ["Time", "s0"]
          ++ ([C1ds].map (fun ds =>
              csvLineOf (csvInsert C1fmt false ds ["Time", "s0"]
                (fun _ => none)).1)).join)
        (headerChars false ["Time", "s0"]).length 1
        ((["Time", "s0"] : List String).map (fun _ => some ([] : List PyF)))
        none
      = .ok ((["Time", "s0"] : List String).map (fun l =>
          some ([C1ds].map (fun ds => resolveDS ds l))))
    ∧ ∀ l ∈ (["Time", "s0"] : List String),
        ([C1ds].foldl (fun d ds =>
          insertMem ["Time", "s0"] none none d ds 0) (fun _ => [])) l
          = [C1ds].map (fun ds => resolveDS ds l)) :=
  ⟨by decide, by decide, by decide, by decide,
   claim_C1 C1fmt C1pf ["Time", "s0"] [C1ds] (fun _ => none) 1
     (by decide) (by decide) (by decide) (by decide)⟩

/-! ## C5: `get_csv` decimation

`time.strftime("%Y/%m/%d %H:%M", time.localtime(t))` and
`format(avg, ".2f")` are abstracted as function parameters `fmtTime` and
`fmt2`; the `rstrip` post-processing of the averaged fields is modelled
concretely.  List indexing `data_array[pos]` is modelled for the
non-negative in-range positions the claims quantify over. -/

/-- A Python number as passed to `get_abs_index`: `int` or `float`. -/
inductive PyNum : Type
  | int : ℤ → PyNum
  | float : ℚ → PyNum

/-- `int()` truncation toward zero. -/
def pyInt (q : ℚ) : ℤ := if 0 ≤ q then ⌊q⌋ else ⌈q⌉

/-- `LogDB.get_abs_index` (lines 597-632) over the range `[r0, r1]`. -/
def getAbsIndex (position : PyNum) (r0 r1 : ℤ) : ℤ :=
  match position with
  | .int p => (if 0 ≤ p then r0 else r1) + p
  | .float p => pyInt (((if 0 ≤ p then r0 else r1) : ℤ) + p * ((r1 : ℚ) - (r0 : ℚ)))

/-- `LogDB.get_index_range` (lines 634-670). -/
def getIndexRange (length : ℤ) (nrr : Option Nat) (start end_ : PyNum) :
    ℤ × ℤ :=
  let r0 : ℤ := match nrr with
    | none => 0
    | some c => if length < (c : ℤ) then 0 else length - c
  (getAbsIndex start r0 length, getAbsIndex end_ r0 length)

/-- `range(a, b)` over Python ints. -/
def intRange (a b : ℤ) : List ℤ :=
  (List.range (b - a).toNat).map (fun i : ℕ => a + (i : ℤ))

/-- `data_array[pos]` at a non-negative in-range position. -/
def dIdx (col : List PyF) (pos : ℤ) : PyF := col.getD pos.toNat PyF.nan

/-- `s.rstrip(c)` for a single strip character. -/
def pyRstripChar (c : Char) (s : List Char) : List Char :=
  (s.reverse.dropWhile (fun x => x = c)).reverse

/-- One averaged CSV field (`get_csv` lines 766-775): when the sum compares
equal to itself and the count is positive, the average formatted with two
decimals, trailing zeros then a trailing decimal point stripped; the empty
field otherwise. -/
def meanField (fmt2 : PyF → List Char) (s : PyF) (c : Nat) : List Char :=
  if PyF.pyEqB s s && decide (0 < c) then
    pyRstripChar '.' (pyRstripChar '0' (fmt2 (PyF.pyDiv s (c : ℚ))))
  else []

/-- The data loop of `get_csv` (lines 754-780).  State: current decimation
factor, remaining section definitions (absolute start index and factor to
apply, in definition order; the current `section_start` is the head, or
the appended `sentinel = length` when exhausted), the accumulator lists
`sum_values`/`sum_length`, and the emitted rows.  `pos % 0` and the
sentinel/exhausted-list lookup on a section switch (`KeyError` /
`pop` on empty) are the error cases. -/
def csvLoop (fmtTime fmt2 : PyF → List Char) (times : List PyF)
    (cols : List (List PyF)) (sentinel : ℤ) :
    List ℤ → Nat → List (ℤ × Nat) → List PyF → List Nat
    → List (List (List Char)) → Except Unit (List (List (List Char)))
  | [], _, _, _, _, acc => .ok acc
  | pos :: rest, factor, secs, sums, cnts, acc =>
    if factor = 0 then .error ()
    else
      -- `if pos % decimation_factor == 0: sum_values = [0]*…; sum_length = …`
      let sums0 := if pos % (factor : ℤ) = 0
        then List.replicate cols.length (PyF.num 0) else sums
      let cnts0 := if pos % (factor : ℤ) = 0
        then List.replicate cols.length 0 else cnts
      -- the accumulation loop over `data_matrix[1:]`
      let sums1 := List.zipWith (fun s col =>
        if PyF.pyEqB (dIdx col pos) (dIdx col pos)
        then PyF.pyAdd s (dIdx col pos) else s) sums0 cols
      let cnts1 := List.zipWith (fun c col =>
        if PyF.pyEqB (dIdx col pos) (dIdx col pos) then c + 1 else c)
        cnts0 cols
      if (pos + 1) % (factor : ℤ) = 0 then
        let row := fmtTime (dIdx times pos)
          :: List.zipWith (meanField fmt2) sums1 cnts1
        if pos > (match secs with | [] => sentinel | (s, _) :: _ => s) then
          match secs with
          | [] => .error ()
          | (_, f) :: rest2 =>
              csvLoop fmtTime fmt2 times cols sentinel rest f rest2
                sums1 cnts1 (acc ++ [row])
        else
          csvLoop fmtTime fmt2 times cols sentinel rest factor secs
            sums1 cnts1 (acc ++ [row])
      else
        csvLoop fmtTime fmt2 times cols sentinel rest factor secs
          sums1 cnts1 acc

/-- `get_csv` (lines 678-781) after the label selection: resolve the index
range and the section definitions, then run the data loop (the returned
header line `",".join(labels)` is omitted — the claims are about the data
rows).  `times` is `data_matrix[0]` (the `Time` column), `cols` is
`data_matrix[1:]`. -/
def getCsvRows (fmtTime fmt2 : PyF → List Char) (times : List PyF)
    (cols : List (List PyF)) (nrr : Option Nat) (start end_ : PyNum)
    (defs : List (PyNum × Nat)) : Except Unit (List (List (List Char))) :=
  let r := getIndexRange (times.length : ℤ) nrr start end_
  let secs := defs.map (fun d => (getAbsIndex d.1 r.1 r.2, d.2))
  csvLoop fmtTime fmt2 times cols (times.length : ℤ) (intRange r.1 r.2) 1
    secs (List.replicate cols.length (PyF.num 0))
    (List.replicate cols.length 0) []

/-- Sum and count of the non-NaN values of a column over a position list
(the value of the `get_csv` accumulator pair after those positions). -/
def groupAcc (col : List PyF) (ps : List ℤ) : PyF × Nat :=
  ps.foldl (fun sc p =>
    if PyF.pyEqB (dIdx col p) (dIdx col p)
    then (PyF.pyAdd sc.1 (dIdx col p), sc.2 + 1) else sc) (PyF.num 0, 0)

lemma intRange_empty {a b : ℤ} (h : b ≤ a) : intRange a b = [] := by
  unfold intRange
  rw [Int.toNat_eq_zero.mpr (by omega)]
  rfl

lemma intRange_cons {a b : ℤ} (h : a < b) :
    intRange a b = a :: intRange (a + 1) b := by
  unfold intRange
  rw [show (b - a).toNat = (b - (a + 1)).toNat + 1 by omega,
    List.range_succ_eq_map, List.map_cons, List.map_map]
  refine congrArg₂ _ (by omega) ?_
  refine List.map_congr_left ?_
  intro i _
  show a + (i + 1 : ℕ) = (a + 1) + i
  push_cast
  ring

lemma intRange_snoc {a b : ℤ} (h : a ≤ b) :
    intRange a (b + 1) = intRange a b ++ [b] := by
  unfold intRange
  rw [show (b + 1 - a).toNat = (b - a).toNat + 1 by omega, List.range_succ,
    List.map_append, List.map_singleton]
  refine congrArg₂ _ rfl ?_
  refine congrArg₂ _ (by omega) rfl

lemma intRange_append {a c b : ℤ} (h1 : a ≤ c) (h2 : c ≤ b) :
    intRange a b = intRange a c ++ intRange c b := by
  obtain ⟨n, rfl⟩ : ∃ n : ℕ, b = c + n := ⟨(b - c).toNat, by omega⟩
  clear h2
  induction n with
  | zero =>
    rw [show c + (0 : ℕ) = c by omega, intRange_empty le_rfl, List.append_nil]
  | succ n ih =>
    rw [show c + ((n + 1 : ℕ) : ℤ) = (c + n) + 1 by push_cast; ring,
      intRange_snoc (by omega), intRange_snoc (by omega), ih, List.append_assoc]

lemma zipWith_map_self {α β γ : Type} (h : β → α → γ) (g : α → β) :
    ∀ (l : List α), List.zipWith h (l.map g) l = l.map (fun x => h (g x) x)
  | [] => rfl
  | x :: xs => by
    simp only [List.map_cons, List.zipWith_cons_cons, zipWith_map_self h g xs]

lemma zipWith_map_both {α β β2 γ : Type} (h : β → β2 → γ) (g : α → β)
    (g2 : α → β2) :
    ∀ (l : List α),
      List.zipWith h (l.map g) (l.map g2) = l.map (fun x => h (g x) (g2 x))
  | [] => rfl
  | x :: xs => by
    simp only [List.map_cons, List.zipWith_cons_cons,
      zipWith_map_both h g g2 xs]

lemma groupAcc_snoc (col : List PyF) (ps : List ℤ) (q : ℤ) :
    groupAcc col (ps ++ [q])
      = if PyF.pyEqB (dIdx col q) (dIdx col q)
        then (PyF.pyAdd (groupAcc col ps).1 (dIdx col q), (groupAcc col ps).2 + 1)
        else groupAcc col ps := by
  unfold groupAcc
  rw [List.foldl_append]
  rfl

lemma csvLoop_mid (fmtTime fmt2 : PyF → List Char) (times : List PyF)
    (cols : List (List PyF)) (sentinel pos : ℤ) (rest : List ℤ)
    (factor : Nat) (secs : List (ℤ × Nat)) (sums : List PyF)
    (cnts : List Nat) (acc : List (List (List Char)))
    (hf : factor ≠ 0) (h1 : ¬ pos % (factor : ℤ) = 0)
    (h2 : ¬ (pos + 1) % (factor : ℤ) = 0) :
    csvLoop fmtTime fmt2 times cols sentinel (pos :: rest) factor secs
        sums cnts acc
      = csvLoop fmtTime fmt2 times cols sentinel rest factor secs
          (List.zipWith (fun s col =>
            if PyF.pyEqB (dIdx col pos) (dIdx col pos)
            then PyF.pyAdd s (dIdx col pos) else s) sums cols)
          (List.zipWith (fun c col =>
            if PyF.pyEqB (dIdx col pos) (dIdx col pos) then c + 1 else c)
            cnts cols)
          acc := by
  simp only [csvLoop]
  rw [if_neg hf, if_neg h1, if_neg h1, if_neg h2]

lemma csvLoop_start (fmtTime fmt2 : PyF → List Char) (times : List PyF)
    (cols : List (List PyF)) (sentinel pos : ℤ) (rest : List ℤ)
    (factor : Nat) (secs : List (ℤ × Nat)) (sums : List PyF)
    (cnts : List Nat) (acc : List (List (List Char)))
    (hf : factor ≠ 0) (h1 : pos % (factor : ℤ) = 0)
    (h2 : ¬ (pos + 1) % (factor : ℤ) = 0) :
    csvLoop fmtTime fmt2 times cols sentinel (pos :: rest) factor secs
        sums cnts acc
      = csvLoop fmtTime fmt2 times cols sentinel rest factor secs
          (List.zipWith (fun s col =>
            if PyF.pyEqB (dIdx col pos) (dIdx col pos)
            then PyF.pyAdd s (dIdx col pos) else s)
            (List.replicate cols.length (PyF.num 0)) cols)
          (List.zipWith (fun c col =>
            if PyF.pyEqB (dIdx col pos) (dIdx col pos) then c + 1 else c)
            (List.replicate cols.length 0) cols)
          acc := by
  simp only [csvLoop]
  rw [if_neg hf, if_pos h1, if_pos h1, if_neg h2]

lemma csvLoop_emit (fmtTime fmt2 : PyF → List Char) (times : List PyF)
    (cols : List (List PyF)) (sentinel pos : ℤ) (rest : List ℤ)
    (factor : Nat) (secs : List (ℤ × Nat)) (sums : List PyF)
    (cnts : List Nat) (acc : List (List (List Char)))
    (hf : factor ≠ 0) (h1 : ¬ pos % (factor : ℤ) = 0)
    (h2 : (pos + 1) % (factor : ℤ) = 0)
    (hsec : ¬ pos > (match secs with | [] => sentinel | (s, _) :: _ => s)) :
    csvLoop fmtTime fmt2 times cols sentinel (pos :: rest) factor secs
        sums cnts acc
      = csvLoop fmtTime fmt2 times cols sentinel rest factor secs
          (List.zipWith (fun s col =>
            if PyF.pyEqB (dIdx col pos) (dIdx col pos)
            then PyF.pyAdd s (dIdx col pos) else s) sums cols)
          (List.zipWith (fun c col =>
            if PyF.pyEqB (dIdx col pos) (dIdx col pos) then c + 1 else c)
            cnts cols)
          (acc ++ [fmtTime (dIdx times pos)
            :: List.zipWith (meanField fmt2)
              (List.zipWith (fun s col =>
                if PyF.pyEqB (dIdx col pos) (dIdx col pos)
                then PyF.pyAdd s (dIdx col pos) else s) sums cols)
              (List.zipWith (fun c col =>
                if PyF.pyEqB (dIdx col pos) (dIdx col pos) then c + 1 else c)
                cnts cols)]) := by
  simp only [csvLoop]
  rw [if_neg hf, if_neg h1, if_neg h1, if_pos h2, if_neg hsec]

lemma csvLoop_reset_emit (fmtTime fmt2 : PyF → List Char) (times : List PyF)
    (cols : List (List PyF)) (sentinel pos : ℤ) (rest : List ℤ)
    (factor : Nat) (secs : List (ℤ × Nat)) (sums : List PyF)
    (cnts : List Nat) (acc : List (List (List Char)))
    (hf : factor ≠ 0) (h1 : pos % (factor : ℤ) = 0)
    (h2 : (pos + 1) % (factor : ℤ) = 0)
    (hsec : ¬ pos > (match secs with | [] => sentinel | (s, _) :: _ => s)) :
    csvLoop fmtTime fmt2 times cols sentinel (pos :: rest) factor secs
        sums cnts acc
      = csvLoop fmtTime fmt2 times cols sentinel rest factor secs
          (List.zipWith (fun s col =>
            if PyF.pyEqB (dIdx col pos) (dIdx col pos)
            then PyF.pyAdd s (dIdx col pos) else s)
            (List.replicate cols.length (PyF.num 0)) cols)
          (List.zipWith (fun c col =>
            if PyF.pyEqB (dIdx col pos) (dIdx col pos) then c + 1 else c)
            (List.replicate cols.length 0) cols)
          (acc ++ [fmtTime (dIdx times pos)
            :: List.zipWith (meanField fmt2)
              (List.zipWith (fun s col =>
                if PyF.pyEqB (dIdx col pos) (dIdx col pos)
                then PyF.pyAdd s (dIdx col pos) else s)
                (List.replicate cols.length (PyF.num 0)) cols)
              (List.zipWith (fun c col =>
                if PyF.pyEqB (dIdx col pos) (dIdx col pos) then c + 1 else c)
                (List.replicate cols.length 0) cols)]) := by
  simp only [csvLoop]
  rw [if_neg hf, if_pos h1, if_pos h1, if_pos h2, if_neg hsec]

/-- The data row emitted for the decimation group `[q, q+f)`: the time of
the group's LAST record, then per column the averaged field. -/
def decRow (fmtTime fmt2 : PyF → List Char) (times : List PyF)
    (cols : List (List PyF)) (f : ℕ) (q : ℤ) : List (List Char) :=
  fmtTime (dIdx times (q + f - 1))
    :: cols.map (fun col => meanField fmt2
        (groupAcc col (intRange q (q + f))).1
        (groupAcc col (intRange q (q + f))).2)

lemma zip_sums (cols : List (List PyF)) (P : List ℤ) (q : ℤ) :
    List.zipWith (fun s col =>
        if PyF.pyEqB (dIdx col q) (dIdx col q)
        then PyF.pyAdd s (dIdx col q) else s)
      (cols.map (fun col => (groupAcc col P).1)) cols
      = cols.map (fun col => (groupAcc col (P ++ [q])).1) := by
  rw [zipWith_map_self]
  refine List.map_congr_left ?_
  intro col _
  rw [groupAcc_snoc]
  by_cases h : PyF.pyEqB (dIdx col q) (dIdx col q) = true
  · rw [if_pos h, if_pos h]
  · rw [if_neg h, if_neg h]

lemma zip_cnts (cols : List (List PyF)) (P : List ℤ) (q : ℤ) :
    List.zipWith (fun c col =>
        if PyF.pyEqB (dIdx col q) (dIdx col q) then c + 1 else c)
      (cols.map (fun col => (groupAcc col P).2)) cols
      = cols.map (fun col => (groupAcc col (P ++ [q])).2) := by
  rw [zipWith_map_self]
  refine List.map_congr_left ?_
  intro col _
  rw [groupAcc_snoc]
  by_cases h : PyF.pyEqB (dIdx col q) (dIdx col q) = true
  · rw [if_pos h, if_pos h]
  · rw [if_neg h, if_neg h]

lemma zip_sums_init (cols : List (List PyF)) (q : ℤ) :
    List.zipWith (fun s col =>
        if PyF.pyEqB (dIdx col q) (dIdx col q)
        then PyF.pyAdd s (dIdx col q) else s)
      (List.replicate cols.length (PyF.num 0)) cols
      = cols.map (fun col => (groupAcc col ([] ++ [q])).1) := by
  rw [← List.map_const, zipWith_map_self]
  refine List.map_congr_left ?_
  intro col _
  rw [groupAcc_snoc]
  by_cases h : PyF.pyEqB (dIdx col q) (dIdx col q) = true
  · rw [if_pos h, if_pos h]
    rfl
  · rw [if_neg h, if_neg h]
    rfl

lemma zip_cnts_init (cols : List (List PyF)) (q : ℤ) :
    List.zipWith (fun c col =>
        if PyF.pyEqB (dIdx col q) (dIdx col q) then c + 1 else c)
      (List.replicate cols.length 0) cols
      = cols.map (fun col => (groupAcc col ([] ++ [q])).2) := by
  rw [← List.map_const, zipWith_map_self]
  refine List.map_congr_left ?_
  intro col _
  rw [groupAcc_snoc]
  by_cases h : PyF.pyEqB (dIdx col q) (dIdx col q) = true
  · rw [if_pos h, if_pos h]
    rfl
  · rw [if_neg h, if_neg h]
    rfl

lemma emod_shift_ne (f : ℕ) (t r : ℤ) (h0 : 0 < r) (h1 : r < f) :
    ¬ ((f : ℤ) * t + r) % (f : ℤ) = 0 := by
  rw [show (f : ℤ) * t + r = r + (f : ℤ) * t from by ring,
    Int.add_mul_emod_self_left, Int.emod_eq_of_lt (by omega) (by omega)]
  omega

lemma emod_shift_eq (f : ℕ) (t : ℤ) :
    ((f : ℤ) * t + (f : ℤ)) % (f : ℤ) = 0 := by
  rw [show (f : ℤ) * t + (f : ℤ) = (t + 1) * (f : ℤ) from by ring]
  exact Int.mul_emod_left _ _

/-- Stepping through the interior of a decimation group: from `m` remaining
positions (none of them a reset position) to the group's emission. -/
lemma csvLoop_group_tail (fmtTime fmt2 : PyF → List Char) (times : List PyF)
    (cols : List (List PyF)) (sentinel : ℤ) (secs : List (ℤ × Nat))
    (p : ℤ) (f : ℕ) (hp : p % (f : ℤ) = 0)
    (hsec : ¬ (p + (f : ℤ) - 1
      > (match secs with | [] => sentinel | (s, _) :: _ => s))) :
    ∀ (m : ℕ), 1 ≤ m → m < f →
      ∀ (rest : List ℤ) (acc : List (List (List Char))),
      csvLoop fmtTime fmt2 times cols sentinel
          (intRange (p + ((f - m : ℕ) : ℤ)) (p + (f : ℤ)) ++ rest) f secs
          (cols.map (fun col =>
            (groupAcc col (intRange p (p + ((f - m : ℕ) : ℤ)))).1))
          (cols.map (fun col =>
            (groupAcc col (intRange p (p + ((f - m : ℕ) : ℤ)))).2))
          acc
        = csvLoop fmtTime fmt2 times cols sentinel rest f secs
            (cols.map (fun col =>
              (groupAcc col (intRange p (p + (f : ℤ)))).1))
            (cols.map (fun col =>
              (groupAcc col (intRange p (p + (f : ℤ)))).2))
            (acc ++ [decRow fmtTime fmt2 times cols f p])
  | 0, h1, _, _, _ => absurd h1 (by decide)
  | 1, _, hmf, rest, acc => by
    obtain ⟨t, rfl⟩ : ∃ t, p = (f : ℤ) * t :=
      Int.dvd_of_emod_eq_zero hp
    have hE2 : (f : ℤ) * t + ((f - 1 : ℕ) : ℤ) = (f : ℤ) * t + (f : ℤ) - 1 := by
      omega
    rw [hE2]
    rw [show intRange ((f : ℤ) * t + (f : ℤ) - 1) ((f : ℤ) * t + (f : ℤ))
        = [(f : ℤ) * t + (f : ℤ) - 1] from by
      rw [intRange_cons (by omega), intRange_empty (by omega)]]
    rw [List.cons_append, List.nil_append]
    rw [csvLoop_emit fmtTime fmt2 times cols sentinel
      ((f : ℤ) * t + (f : ℤ) - 1) rest f secs _ _ acc (by omega)
      (by
        have h := emod_shift_ne f t ((f : ℤ) - 1) (by omega) (by omega)
        rwa [show (f : ℤ) * t + ((f : ℤ) - 1) = (f : ℤ) * t + (f : ℤ) - 1
          from by ring] at h)
      (by
        have h := emod_shift_eq f t
        rwa [show (f : ℤ) * t + (f : ℤ) = (f : ℤ) * t + (f : ℤ) - 1 + 1
          from by ring] at h)
      hsec]
    rw [zip_sums, zip_cnts]
    have hsn := intRange_snoc (a := (f : ℤ) * t)
      (b := (f : ℤ) * t + (f : ℤ) - 1) (by omega)
    rw [show ((f : ℤ) * t + (f : ℤ) - 1) + 1 = (f : ℤ) * t + (f : ℤ)
      from by ring] at hsn
    rw [← hsn]
    rw [zipWith_map_both]
    simp only [decRow]
  | m + 2, _, hmf, rest, acc => by
    obtain ⟨t, rfl⟩ : ∃ t, p = (f : ℤ) * t :=
      Int.dvd_of_emod_eq_zero hp
    have hE : (f : ℤ) * t + ((f - (m + 2) : ℕ) : ℤ) + 1
        = (f : ℤ) * t + ((f - (m + 1) : ℕ) : ℤ) := by
      omega
    rw [intRange_cons (a := (f : ℤ) * t + ((f - (m + 2) : ℕ) : ℤ))
      (b := (f : ℤ) * t + (f : ℤ)) (by omega)]
    rw [List.cons_append]
    rw [csvLoop_mid fmtTime fmt2 times cols sentinel
      ((f : ℤ) * t + ((f - (m + 2) : ℕ) : ℤ)) _ f secs _ _ acc
      (by omega)
      (emod_shift_ne f t _ (by omega) (by omega))
      (by
        have h := emod_shift_ne f t ((f - (m + 1) : ℕ) : ℤ) (by omega) (by omega)
        rwa [← hE] at h)]
    rw [zip_sums, zip_cnts]
    have hsn := intRange_snoc (a := (f : ℤ) * t)
      (b := (f : ℤ) * t + ((f - (m + 2) : ℕ) : ℤ)) (by omega)
    rw [hE] at hsn
    rw [← hsn, hE]
    exact csvLoop_group_tail fmtTime fmt2 times cols sentinel secs
      ((f : ℤ) * t) f hp hsec (m + 1) (by omega) (by omega) rest acc

/-- One full decimation group `[p, p+f)` (aligned: `p % f = 0`): reset,
accumulate, emit one row carrying the time of the group's last record. -/
lemma csvLoop_group (fmtTime fmt2 : PyF → List Char) (times : List PyF)
    (cols : List (List PyF)) (sentinel : ℤ) (secs : List (ℤ × Nat))
    (p : ℤ) (f : ℕ) (hf : 0 < f) (hp : p % (f : ℤ) = 0)
    (hsec : ¬ (p + (f : ℤ) - 1
      > (match secs with | [] => sentinel | (s, _) :: _ => s)))
    (rest : List ℤ) (sums : List PyF) (cnts : List Nat)
    (acc : List (List (List Char))) :
    csvLoop fmtTime fmt2 times cols sentinel
        (intRange p (p + (f : ℤ)) ++ rest) f secs sums cnts acc
      = csvLoop fmtTime fmt2 times cols sentinel rest f secs
          (cols.map (fun col => (groupAcc col (intRange p (p + (f : ℤ)))).1))
          (cols.map (fun col => (groupAcc col (intRange p (p + (f : ℤ)))).2))
          (acc ++ [decRow fmtTime fmt2 times cols f p]) := by
  have hsing : intRange p (p + (1 : ℤ)) = [p] := by
    rw [intRange_cons (by omega), intRange_empty (by omega)]
  by_cases hf1 : f = 1
  · subst hf1
    rw [show ((1 : ℕ) : ℤ) = 1 from rfl] at hsec ⊢
    rw [hsing, List.cons_append, List.nil_append]
    rw [csvLoop_reset_emit fmtTime fmt2 times cols sentinel p rest 1 secs
      sums cnts acc (by omega) hp (Int.emod_one _)
      (by rwa [show p + (1 : ℤ) - 1 = p from by ring] at hsec)]
    rw [zip_sums_init, zip_cnts_init, zipWith_map_both]
    simp only [List.nil_append, decRow]
    rw [show ((1 : ℕ) : ℤ) = 1 from rfl, hsing,
      show p + (1 : ℤ) - 1 = p from by ring]
  · conv_lhs => rw [intRange_cons (by omega), List.cons_append]
    rw [csvLoop_start fmtTime fmt2 times cols sentinel p _ f secs sums cnts acc
      (by omega) hp
      (by
        obtain ⟨t, rfl⟩ : ∃ t, p = (f : ℤ) * t :=
          Int.dvd_of_emod_eq_zero hp
        exact emod_shift_ne f t 1 (by omega) (by omega))]
    rw [zip_sums_init, zip_cnts_init]
    simp only [List.nil_append]
    have htail := csvLoop_group_tail fmtTime fmt2 times cols sentinel secs p f
      hp hsec (f - 1) (by omega) (by omega) rest acc
    rw [show ((f - (f - 1) : ℕ) : ℤ) = 1 from by omega] at htail
    rw [hsing] at htail
    exact htail

/-- The whole selected window, `g` aligned groups of `f` records, no
remaining section boundary: one row per group. -/
lemma csvLoop_groups (fmtTime fmt2 : PyF → List Char) (times : List PyF)
    (cols : List (List PyF)) (sentinel : ℤ) (f : ℕ) (hf : 0 < f) :
    ∀ (g : ℕ) (p : ℤ) (sums : List PyF) (cnts : List Nat)
      (acc : List (List (List Char))),
      p % (f : ℤ) = 0 → p + ((g * f : ℕ) : ℤ) - 1 ≤ sentinel →
      csvLoop fmtTime fmt2 times cols sentinel
          (intRange p (p + ((g * f : ℕ) : ℤ))) f [] sums cnts acc
        = .ok (acc ++ (List.range g).map (fun k =>
            decRow fmtTime fmt2 times cols f (p + ((k * f : ℕ) : ℤ))))
  | 0, p, sums, cnts, acc, hp, hb => by
    rw [show p + ((0 * f : ℕ) : ℤ) = p from by push_cast; ring]
    rw [intRange_empty le_rfl]
    simp [csvLoop]
  | g + 1, p, sums, cnts, acc, hp, hb => by
    rw [show p + (((g + 1) * f : ℕ) : ℤ)
        = (p + (f : ℤ)) + ((g * f : ℕ) : ℤ) from by push_cast; ring]
    rw [intRange_append (c := p + (f : ℤ)) (by omega) (by omega)]
    rw [csvLoop_group fmtTime fmt2 times cols sentinel [] p f hf hp
      (by
        show ¬ (p + (f : ℤ) - 1 > sentinel)
        have hcast : (((g + 1) * f : ℕ) : ℤ) = ((g * f : ℕ) : ℤ) + (f : ℤ) := by
          push_cast
          ring
        omega)
      (intRange (p + (f : ℤ)) (p + (f : ℤ) + ((g * f : ℕ) : ℤ)))
      sums cnts acc]
    rw [csvLoop_groups fmtTime fmt2 times cols sentinel f hf g (p + (f : ℤ))
      _ _ _
      (by
        obtain ⟨t, rfl⟩ : ∃ t, p = (f : ℤ) * t :=
          Int.dvd_of_emod_eq_zero hp
        exact emod_shift_eq f t)
      (by
        have hcast : (((g + 1) * f : ℕ) : ℤ) = ((g * f : ℕ) : ℤ) + (f : ℤ) := by
          push_cast
          ring
        omega)]
    refine congrArg _ ?_
    rw [List.append_assoc, List.singleton_append, List.range_succ_eq_map,
      List.map_cons, List.map_map]
    refine congrArg₂ _ ?_ (congrArg₂ _ ?_ ?_)
    · rfl
    · exact congrArg (decRow fmtTime fmt2 times cols f) (by push_cast; ring)
    · refine List.map_congr_left ?_
      intro k _
      show decRow fmtTime fmt2 times cols f (p + (f : ℤ) + ((k * f : ℕ) : ℤ))
        = decRow fmtTime fmt2 times cols f (p + (((k + 1) * f : ℕ) : ℤ))
      exact congrArg (decRow fmtTime fmt2 times cols f) (by push_cast; ring)

/-- **C5 (amended).**  For a decimation factor `f` in effect over an
aligned window (`p % f = 0`) of `g` whole groups of `f` consecutive
records, with no further section boundary before the window's end,
`get_csv` emits exactly one data row per group; the row of group `k`
carries in its first column the time value of the LAST source record of
the group (index `p + k*f + f - 1`) — not the first — and in every other
column the mean of the group's non-NaN values formatted with two decimals
and trailing zeros (then any trailing decimal point) stripped, or an
empty field when the group has no valid value for that column
(`meanField` of the group's `groupAcc`). -/
theorem claim_C5 (fmtTime fmt2 : PyF → List Char) (times : List PyF)
    (cols : List (List PyF)) (sentinel p : ℤ) (f g : ℕ)
    (sums : List PyF) (cnts : List Nat)
    (hf : 0 < f) (hp : p % (f : ℤ) = 0)
    (hb : p + ((g * f : ℕ) : ℤ) - 1 ≤ sentinel) :
    csvLoop fmtTime fmt2 times cols sentinel
        (intRange p (p + ((g * f : ℕ) : ℤ))) f [] sums cnts []
      = .ok ((List.range g).map (fun k =>
          fmtTime (dIdx times (p + ((k * f : ℕ) : ℤ) + (f : ℤ) - 1))
            :: cols.map (fun col => meanField fmt2
                (groupAcc col (intRange (p + ((k * f : ℕ) : ℤ))
                  (p + ((k * f : ℕ) : ℤ) + (f : ℤ)))).1
                (groupAcc col (intRange (p + ((k * f : ℕ) : ℤ))
                  (p + ((k * f : ℕ) : ℤ) + (f : ℤ)))).2))) := by
  rw [csvLoop_groups fmtTime fmt2 times cols sentinel f hf g p sums cnts []
    hp hb]
  rw [List.nil_append]
  refine congrArg _ (List.map_congr_left ?_)
  intro k _
  simp only [decRow]

/-- Concrete time formatter for the C5 witness and counterexample
(abstracting `time.strftime`). -/
def C5fmtT : PyF → List Char :=
  fun v => if v = PyF.num 13 then "T13".toList
    else if v = PyF.num 12 then "T12".toList
    else if v = PyF.num 11 then "T11".toList
    else if v = PyF.num 10 then "T10".toList else ['?']

/-- Concrete two-decimal formatter for the C5 witness and counterexample
(abstracting `format(x, ".2f")`). -/
def C5fmt2 : PyF → List Char :=
  fun v => if v = PyF.num 1 then "1.00".toList
    else if v = PyF.num 2 then "2.00".toList
    else if v = PyF.num 3 then "3.00".toList
    else if v = PyF.num 4 then "4.00".toList else "9.99".toList

/-- C5 counterexample: a full `get_csv` call over four records with times
10,11,12,13, selecting only the time column over the whole range and
decimating by 2 from position 0
(`section_decimation_definitions = {0: 2}`).  The call emits three rows;
the last emitted row is the group of source records 2 and 3, and its time
column is `T13` — the formatting of the time 13 of the LAST record of the
group — not `T12`, the formatting of the group's FIRST record's time
12. -/
theorem claim_C5_counterexample :
    getCsvRows C5fmtT C5fmt2
        [PyF.num 10, PyF.num 11, PyF.num 12, PyF.num 13] [] none
        (PyNum.int 0) (PyNum.int 4) [(PyNum.int 0, 2)]
      = .ok [["T10".toList], ["T11".toList], ["T13".toList]]
    ∧ dIdx [PyF.num 10, PyF.num 11, PyF.num 12, PyF.num 13] 2 = PyF.num 12
    ∧ C5fmtT (PyF.num 12) = "T12".toList
    ∧ ("T13".toList ≠ "T12".toList) := by
  refine ⟨?_, by decide, by decide, by decide⟩
  rfl

/-- C5 witness: the hypotheses of `claim_C5` hold at a concrete instance
(four records, one sensor column, factor 2 in effect over two aligned
groups), and the conclusion applies there. -/
theorem claim_C5_witness :
    (0 < 2)
    ∧ ((0 : ℤ) % ((2 : ℕ) : ℤ) = 0)
    ∧ ((0 : ℤ) + ((2 * 2 : ℕ) : ℤ) - 1 ≤ (4 : ℤ))
    ∧ csvLoop C5fmtT C5fmt2
        [PyF.num 10, PyF.num 11, PyF.num 12, PyF.num 13]
        [[PyF.num 1, PyF.nan, PyF.num 3, PyF.num 5]] 4
        (intRange 0 (0 + ((2 * 2 : ℕ) : ℤ))) 2 [] [] [] []
      = .ok ((List.range 2).map (fun k =>
          C5fmtT (dIdx [PyF.num 10, PyF.num 11, PyF.num 12, PyF.num 13]
              ((0 : ℤ) + ((k * 2 : ℕ) : ℤ) + ((2 : ℕ) : ℤ) - 1))
            :: [[PyF.num 1, PyF.nan, PyF.num 3, PyF.num 5]].map (fun col =>
                meanField C5fmt2
                  (groupAcc col (intRange ((0 : ℤ) + ((k * 2 : ℕ) : ℤ))
                    ((0 : ℤ) + ((k * 2 : ℕ) : ℤ) + ((2 : ℕ) : ℤ)))).1
                  (groupAcc col (intRange ((0 : ℤ) + ((k * 2 : ℕ) : ℤ))
                    ((0 : ℤ) + ((k * 2 : ℕ) : ℤ) + ((2 : ℕ) : ℤ)))).2))) :=
  ⟨by decide, by decide, by decide,
   claim_C5 C5fmtT C5fmt2
     [PyF.num 10, PyF.num 11, PyF.num 12, PyF.num 13]
     [[PyF.num 1, PyF.nan, PyF.num 3, PyF.num 5]] 4 0 2 2 [] []
     (by decide) (by decide) (by decide)⟩
